import Mathlib

/-!
Shallow embedding of the `btreemap` repository (`src/main.rs`): a B-tree map
with minimum degree `t`, supporting `new`, `insert` and `search`.

Rust `Vec` operations that can panic (`v[i]`, `Vec::insert`, `Vec::split_off`,
`Option::unwrap` after `pop`) are modelled as `Option`-returning functions,
with `none` standing for the panic. Consequently the mutating tree operations
(`split_child`, `insert_non_full`, `BTreeMap.insert`) return `Option` results,
and `search` returns `Option (Option V)`: the outer layer is the panic layer,
the inner layer is Rust's `Option<&V>` result.
-/

section Embedding

variable {K V : Type}

/-- `self.keys.iter().position(|k| *k >= key).unwrap_or(self.keys.len())`:
the first index whose key is `≥ key`, or the length when there is none. -/
def findPos [LinearOrder K] (l : List K) (k : K) : Nat :=
  match l with
  | [] => 0
  | x :: xs => if k ≤ x then 0 else findPos xs k + 1

/-- Rust `Vec::insert(i, a)`: insert `a` so it sits at index `i`; panics
(`none`) when `i > len`. -/
def vinsert (l : List α) (i : Nat) (a : α) : Option (List α) :=
  if i ≤ l.length then some (l.take i ++ a :: l.drop i) else none

/-- Rust `Vec::split_off(i)`: `self` keeps `[0, i)`, the result is `[i, len)`;
panics (`none`) when `i > len`. -/
def splitOff (l : List α) (i : Nat) : Option (List α × List α) :=
  if i ≤ l.length then some (l.take i, l.drop i) else none

/-- Rust `self.pop().unwrap()`: removes and returns the last element,
panicking (`none`) on the empty vector. -/
def popLast (l : List α) : Option (List α × α) :=
  match l.getLast? with
  | none => none
  | some a => some (l.dropLast, a)

/-- The node type of `src/main.rs`: parallel key/value vectors, child
vector, leaf flag and a copy of the minimum degree. -/
inductive BTreeNode (K V : Type) : Type where
  | mk (keys : List K) (values : List V) (children : List (BTreeNode K V))
      ( is_leaf : Bool) (min_degree : Nat) : BTreeNode K V

def BTreeNode.keys : BTreeNode K V → List K
  | .mk ks _ _ _ _ => ks

def BTreeNode.values : BTreeNode K V → List V
  | .mk _ vs _ _ _ => vs

def BTreeNode.children : BTreeNode K V → List (BTreeNode K V)
  | .mk _ _ cs _ _ => cs

def BTreeNode.isLeaf : BTreeNode K V → Bool
  | .mk _ _ _ lf _ => lf

def BTreeNode.minDegree : BTreeNode K V → Nat
  | .mk _ _ _ _ md => md

/-- `BTreeNode::new(min_degree, is_leaf)`. -/
def BTreeNode.new (min_degree : Nat) (lf : Bool) : BTreeNode K V :=
  .mk [] [] [] lf min_degree

mutual

/-- Height of a node: `1 +` the maximum height of its children. -/
def BTreeNode.height : BTreeNode K V → Nat
  | .mk _ _ cs _ _ => 1 + BTreeNode.heightList cs

/-- Maximum height over a list of nodes (`0` for the empty list). -/
def BTreeNode.heightList : List (BTreeNode K V) → Nat
  | [] => 0
  | c :: cs => max c.height (BTreeNode.heightList cs)

end

@[simp] theorem keys_mk (ks : List K) (vs : List V) (cs lf md) :
    (BTreeNode.mk ks vs cs lf md).keys = ks := rfl

@[simp] theorem values_mk (ks : List K) (vs : List V) (cs lf md) :
    (BTreeNode.mk ks vs cs lf md).values = vs := rfl

@[simp] theorem children_mk (ks : List K) (vs : List V) (cs lf md) :
    (BTreeNode.mk ks vs cs lf md).children = cs := rfl

@[simp] theorem isLeaf_mk (ks : List K) (vs : List V) (cs lf md) :
    (BTreeNode.mk ks vs cs lf md).isLeaf = lf := rfl

@[simp] theorem minDegree_mk (ks : List K) (vs : List V) (cs lf md) :
    (BTreeNode.mk ks vs cs lf md).minDegree = md := rfl

theorem BTreeNode.eta (n : BTreeNode K V) :
    BTreeNode.mk n.keys n.values n.children n.isLeaf n.minDegree = n := by
  cases n
  rfl

theorem splitOff_eq_some {l : List α} {i : Nat} {p : List α × List α} :
    splitOff l i = some p ↔ i ≤ l.length ∧ p = (l.take i, l.drop i) := by
  simp only [splitOff]
  split <;> simp_all [eq_comm]

theorem vinsert_eq_some {l : List α} {i : Nat} {a : α} {l' : List α} :
    vinsert l i a = some l' ↔ i ≤ l.length ∧ l' = l.take i ++ a :: l.drop i := by
  simp only [vinsert]
  split <;> simp_all [eq_comm]

theorem popLast_eq_some {l : List α} {p : List α × α} :
    popLast l = some p ↔ l = p.1 ++ [p.2] := by
  obtain ⟨l', a⟩ := p
  rcases l.eq_nil_or_concat with rfl | ⟨l₀, b, rfl⟩
  · simp [popLast]
  · simp only [List.concat_eq_append, popLast, List.getLast?_concat,
      List.dropLast_concat, Option.some.injEq, Prod.mk.injEq]
    constructor
    · rintro ⟨rfl, rfl⟩; rfl
    · intro h
      have := List.append_inj' h rfl
      simp_all

theorem heightList_le_of_mem {c : BTreeNode K V} {cs : List (BTreeNode K V)}
    (h : c ∈ cs) : c.height ≤ BTreeNode.heightList cs := by
  induction cs with
  | nil => simp at h
  | cons d ds ih =>
    rcases List.mem_cons.mp h with rfl | h'
    · simp [BTreeNode.heightList]
    · exact le_trans (ih h') (by simp [BTreeNode.heightList])

theorem heightList_sublist {cs₁ cs₂ : List (BTreeNode K V)} (h : List.Sublist cs₁ cs₂) :
    BTreeNode.heightList cs₁ ≤ BTreeNode.heightList cs₂ := by
  induction h with
  | slnil => simp
  | cons d _ ih => exact le_trans ih (by simp [BTreeNode.heightList])
  | cons₂ d h ih =>
    simp only [BTreeNode.heightList]
    exact max_le_max le_rfl ih

theorem height_lt_of_mem {c n : BTreeNode K V} (h : c ∈ n.children) :
    c.height < n.height := by
  cases n with
  | mk ks vs cs lf md =>
    simp only [children_mk] at h
    calc c.height ≤ BTreeNode.heightList cs := heightList_le_of_mem h
    _ < 1 + BTreeNode.heightList cs := by omega
    _ = (BTreeNode.mk ks vs cs lf md).height := by rw [BTreeNode.height]

/-- The conditional `if !child.is_leaf { ... child.children.split_off(t) }`
of `split_child`: on a leaf the child list is untouched and the sibling
gets no children; on an internal node it is split off at `t`. -/
def splitChildren (child : BTreeNode K V) (t : Nat) :
    Option (List (BTreeNode K V) × List (BTreeNode K V)) :=
  if child.isLeaf then some (child.children, [])
  else splitOff child.children t

/-- `BTreeNode::split_child(&mut self, index)` from `src/main.rs`, lines
53–69. `none` models a panic. -/
def BTreeNode.split_child (n : BTreeNode K V) (index : Nat) : Option (BTreeNode K V) := do
  let child ← n.children.get? index
  let pk ← splitOff child.keys n.minDegree
  let pv ← splitOff child.values n.minDegree
  let pc ← splitChildren child n.minDegree
  let qk ← popLast pk.1
  let qv ← popLast pv.1
  let child' : BTreeNode K V := .mk qk.1 qv.1 pc.1 child.isLeaf child.minDegree
  let newChild : BTreeNode K V := .mk pk.2 pv.2 pc.2 child.isLeaf n.minDegree
  let keys' ← vinsert n.keys index qk.2
  let values' ← vinsert n.values index qv.2
  let children' ← vinsert (n.children.set index child') (index + 1) newChild
  pure (BTreeNode.mk keys' values' children' n.isLeaf n.minDegree)

theorem height_le_of_split_piece {c : BTreeNode K V} {ks vs lf md}
    {cs : List (BTreeNode K V)} (h : List.Sublist cs c.children) :
    (BTreeNode.mk ks vs cs lf md).height ≤ c.height := by
  cases c with
  | mk cks cvs ccs clf cmd =>
    simp only [children_mk] at h
    simp only [BTreeNode.height]
    exact Nat.add_le_add_left (heightList_sublist h) 1

theorem split_child_height {n n' : BTreeNode K V} {index : Nat}
    (h : n.split_child index = some n') :
    ∀ c' ∈ n'.children, c'.height < n.height := by
  simp only [BTreeNode.split_child, bind, Option.bind_eq_some, Option.pure_def,
    Option.some.injEq] at h
  obtain ⟨child, hchild, pk, hpk, pv, hpv, pc, hpc, qk, hqk, qv, hqv,
    keys', hkeys', values', hvalues', children', hchildren', rfl⟩ := h
  have hmem : child ∈ n.children := List.get?_mem hchild
  have hchild_lt : child.height < n.height := height_lt_of_mem hmem
  have hpc' : List.Sublist pc.1 child.children ∧ List.Sublist pc.2 child.children := by
    unfold splitChildren at hpc
    split at hpc
    · obtain rfl : (child.children, ([] : List (BTreeNode K V))) = pc :=
        Option.some.injEq _ _ ▸ hpc
      exact ⟨List.Sublist.refl _, List.nil_sublist _⟩
    · obtain ⟨-, rfl⟩ := splitOff_eq_some.mp hpc
      exact ⟨List.take_sublist _ _, List.drop_sublist _ _⟩
  have hnew_lt : (BTreeNode.mk pk.2 pv.2 pc.2 child.isLeaf n.minDegree).height < n.height :=
    lt_of_le_of_lt (height_le_of_split_piece hpc'.2) hchild_lt
  have hchild'_lt : (BTreeNode.mk qk.1 qv.1 pc.1 child.isLeaf child.minDegree).height < n.height :=
    lt_of_le_of_lt (height_le_of_split_piece hpc'.1) hchild_lt
  intro c' hc'
  obtain ⟨-, rfl⟩ := vinsert_eq_some.mp hchildren'
  simp only [children_mk] at hc'
  rcases List.mem_append.mp hc' with hc' | hc'
  · rcases List.mem_or_eq_of_mem_set (List.mem_of_mem_take hc') with hc' | rfl
    · exact height_lt_of_mem hc'
    · exact hchild'_lt
  · rcases List.mem_cons.mp hc' with rfl | hc'
    · exact hnew_lt
    · rcases List.mem_or_eq_of_mem_set (List.mem_of_mem_drop hc') with hc' | rfl
      · exact height_lt_of_mem hc'
      · exact hchild'_lt

/-- `BTreeNode::insert_non_full(&mut self, key, value)` from `src/main.rs`,
lines 29–51. `none` models a panic (an out-of-bounds index or a panic
inside `split_child`). -/
def BTreeNode.insert_non_full [LinearOrder K] (n : BTreeNode K V) (k : K) (v : V) :
    Option (BTreeNode K V) :=
  let pos := findPos n.keys k
  if n.isLeaf then
    match vinsert n.keys pos k, vinsert n.values pos v with
    | some keys', some values' =>
        some (BTreeNode.mk keys' values' n.children n.isLeaf n.minDegree)
    | _, _ => none
  else
    match hc : n.children.get? pos with
    | none => none
    | some c =>
      if c.keys.length = 2 * n.minDegree - 1 then
        match hs : n.split_child pos with
        | none => none
        | some n' =>
          match n'.keys.get? pos with
          | none => none
          | some kp =>
            let i := if kp < k then pos + 1 else pos
            match hc' : n'.children.get? i with
            | none => none
            | some c' =>
              match c'.insert_non_full k v with
              | none => none
              | some c'' =>
                  some (BTreeNode.mk n'.keys n'.values (n'.children.set i c'')
                    n'.isLeaf n'.minDegree)
      else
        match c.insert_non_full k v with
        | none => none
        | some cNew =>
            some (BTreeNode.mk n.keys n.values (n.children.set pos cNew)
              n.isLeaf n.minDegree)
termination_by n.height
decreasing_by
· exact split_child_height hs _ (List.get?_mem hc')
· exact height_lt_of_mem (List.get?_mem hc)

/-- The map type of `src/main.rs`: an optional root node plus the minimum
degree. -/
structure BTreeMap (K V : Type) : Type where
  root : Option (BTreeNode K V)
  min_degree : Nat

/-- `BTreeMap::new(min_degree)` from `src/main.rs`, lines 79–84: the root
starts absent and the degree is stored unchecked. -/
def BTreeMap.new (min_degree : Nat) : BTreeMap K V :=
  { root := none, min_degree := min_degree }

/-- `BTreeMap::insert(&mut self, key, value)` from `src/main.rs`, lines
86–102: create a leaf root if absent, grow the root when it is full (new
internal root over the old root, `split_child(0)`, then descend), else
descend directly. `none` models a panic. -/
def BTreeMap.insert [LinearOrder K] (m : BTreeMap K V) (k : K) (v : V) :
    Option (BTreeMap K V) :=
  let root := m.root.getD (BTreeNode.new m.min_degree true)
  if root.keys.length = 2 * m.min_degree - 1 then do
    let g : BTreeNode K V := .mk [] [] [root] false m.min_degree
    let g' ← g.split_child 0
    let g'' ← g'.insert_non_full k v
    pure { root := some g'', min_degree := m.min_degree }
  else do
    let r' ← root.insert_non_full k v
    pure { root := some r', min_degree := m.min_degree }

/-- `BTreeMap::search_in_node(&self, node, key)` from `src/main.rs`, lines
111–130. The outer `Option` models a panic (`values[pos]` on a node whose
value vector is shorter than its key vector); the inner `Option` is the
Rust result. Note the descent uses `children.get(pos)`, which cannot
panic: a missing child yields the inner `none`. -/
def search_in_node [LinearOrder K] (n : BTreeNode K V) (k : K) : Option (Option V) :=
  let pos := findPos n.keys k
  if n.keys.get? pos = some k then
    match n.values.get? pos with
    | none => none
    | some v => some (some v)
  else
    if n.isLeaf then some none
    else
      match hc : n.children.get? pos with
      | none => some none
      | some c => search_in_node c k
termination_by n.height
decreasing_by
exact height_lt_of_mem (List.get?_mem hc)

/-- `BTreeMap::search(&self, key)` from `src/main.rs`, lines 104–109. -/
def BTreeMap.search [LinearOrder K] (m : BTreeMap K V) (k : K) : Option (Option V) :=
  match m.root with
  | none => some none
  | some r => search_in_node r k

/-- Fold a list of insertions over the map, propagating the panic layer. -/
def insertList [LinearOrder K] (m : BTreeMap K V) : List (K × V) → Option (BTreeMap K V)
  | [] => some m
  | p :: ps => (m.insert p.1 p.2).bind fun m' => insertList m' ps

mutual

/-- In-order flattening of a subtree to its (key, value) pairs. -/
def inorder : BTreeNode K V → List (K × V)
  | .mk ks vs cs _ _ => glue cs (ks.zip vs)

/-- Interleave child subtrees with the separator pairs sitting between them. -/
def glue : List (BTreeNode K V) → List (K × V) → List (K × V)
  | [], ps => ps
  | c :: cs, [] => inorder c ++ glue cs []
  | c :: cs, p :: ps => inorder c ++ p :: glue cs ps

end

/-- The contents of a map: the flattening of its root, if any. -/
def contents (m : BTreeMap K V) : List (K × V) :=
  match m.root with
  | none => []
  | some r => inorder r

mutual

/-- Structural well-formedness (no key ordering): correct stored degree,
parallel value vector, occupancy bounds (`rt` true for the root, which is
exempt from the `t - 1` lower bound), leaf/child-count discipline, and the
same recursively for every child. -/
def SWF (t : Nat) (rt : Bool) : BTreeNode K V → Prop
  | .mk ks vs cs lf md =>
      md = t ∧ vs.length = ks.length ∧ ks.length ≤ 2 * t - 1 ∧
      (rt = false → t - 1 ≤ ks.length) ∧
      (if lf = true then cs = [] else cs.length = ks.length + 1) ∧
      SWFlist t cs

/-- `SWF` for every node of a child list. -/
def SWFlist (t : Nat) : List (BTreeNode K V) → Prop
  | [] => True
  | c :: cs => SWF t false c ∧ SWFlist t cs

end

/-- `k` lies strictly inside the open interval `(lo, hi)`, where `none`
stands for an infinite end. -/
def inBounds [LinearOrder K] (lo hi : Option K) (k : K) : Prop :=
  (∀ a ∈ lo, a < k) ∧ (∀ b ∈ hi, k < b)

/-- The open intervals delimiting the children of a node whose keys are
`ks` and whose own bounds are `(lo, hi)`: child `i` sits strictly between
key `i - 1` and key `i`. -/
def childBounds (lo : Option K) : List K → Option K → List (Option K × Option K)
  | [], hi => [(lo, hi)]
  | k :: ks, hi => (lo, some k) :: childBounds (some k) ks hi

mutual

/-- Ordered well-formedness: `SWF`'s structure plus strictly increasing keys
per node, all keys inside the node's bounds, and children well-formed in the
interleaved bounds. (`WFlist` forces `children.length = keys.length + 1` for
internal nodes.) -/
def WF [LinearOrder K] (t : Nat) (rt : Bool) (lo hi : Option K) : BTreeNode K V → Prop
  | .mk ks vs cs lf md =>
      md = t ∧ vs.length = ks.length ∧ ks.length ≤ 2 * t - 1 ∧
      (rt = false → t - 1 ≤ ks.length) ∧
      List.Pairwise (· < ·) ks ∧
      (∀ k ∈ ks, inBounds lo hi k) ∧
      (if lf = true then cs = [] else WFlist t (childBounds lo ks hi) cs)

/-- Children aligned with their bound intervals, each ordered well-formed. -/
def WFlist [LinearOrder K] (t : Nat) :
    List (Option K × Option K) → List (BTreeNode K V) → Prop
  | [], [] => True
  | b :: bs, c :: cs => WF t false b.1 b.2 c ∧ WFlist t bs cs
  | [], _ :: _ => False
  | _ :: _, [] => False

end

mutual

/-- All leaves of the subtree sit at depth `d`, counting the subtree's own
root as depth `1`. -/
def UD (d : Nat) : BTreeNode K V → Prop
  | .mk _ _ cs lf _ =>
      if lf = true then d = 1 else 1 < d ∧ UDlist (d - 1) cs

/-- `UD` for every node of a child list. -/
def UDlist (d : Nat) : List (BTreeNode K V) → Prop
  | [] => True
  | c :: cs => UD d c ∧ UDlist d cs

end

mutual

/-- `P` holds for the node and every node below it. -/
def AllNodes (P : BTreeNode K V → Prop) : BTreeNode K V → Prop
  | .mk ks vs cs lf md => P (.mk ks vs cs lf md) ∧ AllNodesList P cs

/-- `AllNodes P` for every node of a child list. -/
def AllNodesList (P : BTreeNode K V → Prop) : List (BTreeNode K V) → Prop
  | [] => True
  | c :: cs => AllNodes P c ∧ AllNodesList P cs

end

/-- The map-level structural invariant maintained by every insert: the
degree is stored as given, and a present root is structurally well-formed
and non-empty. -/
def MapInv (t : Nat) (m : BTreeMap K V) : Prop :=
  m.min_degree = t ∧
  match m.root with
  | none => True
  | some r => SWF t true r ∧ 1 ≤ r.keys.length

/-- The map-level ordered invariant: as `MapInv`, with the root ordered
well-formed over unbounded key range. -/
def MapOrd [LinearOrder K] (t : Nat) (m : BTreeMap K V) : Prop :=
  m.min_degree = t ∧
  match m.root with
  | none => True
  | some r => WF t true none none r ∧ 1 ≤ r.keys.length

end Embedding

section ListLemmas

variable {K V : Type}

theorem findPos_le_length [LinearOrder K] (l : List K) (k : K) :
    findPos l k ≤ l.length := by
  induction l with
  | nil => simp [findPos]
  | cons x xs ih =>
    by_cases h : k ≤ x
    · simp [findPos, h]
    · simp only [findPos, if_neg h, List.length_cons]
      omega

theorem findPos_take [LinearOrder K] {l : List K} {k : K} :
    ∀ x ∈ l.take (findPos l k), x < k := by
  induction l with
  | nil => simp
  | cons y ys ih =>
    by_cases h : k ≤ y
    · simp [findPos, h]
    · simp only [findPos, if_neg h, List.take_succ_cons]
      intro x hx
      rcases List.mem_cons.mp hx with rfl | hx'
      · exact lt_of_not_le h
      · exact ih x hx'

theorem findPos_get? [LinearOrder K] {l : List K} {k x : K}
    (h : l.get? (findPos l k) = some x) : k ≤ x := by
  induction l with
  | nil => simp [findPos] at h
  | cons y ys ih =>
    by_cases hk : k ≤ y
    · simp only [findPos, if_pos hk, List.get?] at h
      obtain rfl : y = x := by simpa using h
      assumption
    · simp only [findPos, if_neg hk, List.get?] at h
      exact ih h

theorem findPos_append [LinearOrder K] {A B : List K} {k : K}
    (hA : ∀ x ∈ A, x < k) (hB : ∀ x, B.head? = some x → k ≤ x) :
    findPos (A ++ B) k = A.length := by
  induction A with
  | nil =>
    cases B with
    | nil => simp [findPos]
    | cons b bs =>
      have := hB b (by simp)
      simp [findPos, this]
  | cons a as ih =>
    have ha := hA a (by simp)
    have hka : ¬k ≤ a := not_le.mpr ha
    simp only [List.cons_append, findPos, if_neg hka, List.length_cons, List.append_eq]
    rw [ih (fun x hx => hA x (by simp [hx]))]

theorem glue_append {csA csB : List (BTreeNode K V)} {psA psB : List (K × V)}
    (h : csA.length = psA.length) :
    glue (csA ++ csB) (psA ++ psB) = glue csA psA ++ glue csB psB := by
  induction csA generalizing psA with
  | nil =>
    obtain rfl : psA = [] := List.length_eq_zero.mp (by simpa using h.symm)
    simp [glue]
  | cons c cs ih =>
    cases psA with
    | nil => simp at h
    | cons p ps =>
      simp only [List.cons_append, glue, List.append_eq, List.cons_append]
      rw [ih (by simpa using h), List.append_assoc]
      rfl

theorem mem_glue {p : K × V} {cs : List (BTreeNode K V)} {ps : List (K × V)} :
    p ∈ glue cs ps ↔ (∃ c ∈ cs, p ∈ inorder c) ∨ p ∈ ps := by
  induction cs generalizing ps with
  | nil => simp [glue]
  | cons c cs ih =>
    cases ps with
    | nil =>
      simp only [glue, List.mem_append, ih, List.not_mem_nil, or_false]
      constructor
      · rintro (h | ⟨c', hc', hp⟩)
        · exact ⟨c, by simp, h⟩
        · exact ⟨c', by simp [hc'], hp⟩
      · rintro ⟨c', hc', hp⟩
        rcases List.mem_cons.mp hc' with rfl | hc'
        · exact Or.inl hp
        · exact Or.inr ⟨c', hc', hp⟩
    | cons q qs =>
      simp only [glue, List.mem_append, List.mem_cons, ih]
      constructor
      · rintro (h | rfl | ⟨c', hc', hp⟩ | h)
        · exact Or.inl ⟨c, by simp, h⟩
        · exact Or.inr (by simp)
        · exact Or.inl ⟨c', by simp [hc'], hp⟩
        · exact Or.inr (by simp [h])
      · rintro (⟨c', hc', hp⟩ | h)
        · rcases hc' with rfl | hc'
          · exact Or.inl hp
          · exact Or.inr (Or.inr (Or.inl ⟨c', hc', hp⟩))
        · rcases h with rfl | h
          · exact Or.inr (Or.inl rfl)
          · exact Or.inr (Or.inr (Or.inr h))

theorem childBounds_length [LinearOrder K] (lo hi : Option K) (ks : List K) :
    (childBounds lo ks hi).length = ks.length + 1 := by
  induction ks generalizing lo with
  | nil => simp [childBounds]
  | cons k ks ih => simp [childBounds, ih]

theorem childBounds_append [LinearOrder K] (lo hi : Option K) (xs ys : List K) (k : K) :
    childBounds lo (xs ++ k :: ys) hi =
      childBounds lo xs (some k) ++ childBounds (some k) ys hi := by
  induction xs generalizing lo with
  | nil => simp [childBounds]
  | cons x xs ih => simp [childBounds, ih]

end ListLemmas

section PredicateLemmas

variable {K V : Type}

/-- Strong induction on the height of a node. -/
theorem BTreeNode.heightInduction {motive : BTreeNode K V → Prop}
    (h : ∀ n, (∀ m : BTreeNode K V, m.height < n.height → motive m) → motive n) :
    ∀ n, motive n := by
  have key : ∀ N, ∀ n : BTreeNode K V, n.height ≤ N → motive n := by
    intro N
    induction N with
    | zero =>
      intro n hn
      cases n with
      | mk ks vs cs lf md => simp [BTreeNode.height] at hn
    | succ N ih =>
      intro n hn
      exact h n (fun m hm => ih m (by omega))
  exact fun n => key n.height n le_rfl

/-- Structural induction: to prove a property of every node it is enough to
prove it for a node from its children. -/
theorem BTreeNode.inductionOn {motive : BTreeNode K V → Prop}
    (h : ∀ ks vs cs lf md, (∀ c ∈ cs, motive c) → motive (.mk ks vs cs lf md)) :
    ∀ n, motive n := by
  apply BTreeNode.heightInduction
  intro n ih
  cases n with
  | mk ks vs cs lf md =>
    exact h ks vs cs lf md fun c hc =>
      ih c (height_lt_of_mem (n := .mk ks vs cs lf md) (by simpa using hc))

theorem SWFlist_append {t : Nat} {cs₁ cs₂ : List (BTreeNode K V)} :
    SWFlist t (cs₁ ++ cs₂) ↔ SWFlist t cs₁ ∧ SWFlist t cs₂ := by
  induction cs₁ with
  | nil => simp [SWFlist]
  | cons c cs ih => simp [SWFlist, ih, and_assoc]

theorem SWFlist_mem {t : Nat} {cs : List (BTreeNode K V)} {c : BTreeNode K V}
    (h : SWFlist t cs) (hc : c ∈ cs) : SWF t false c := by
  induction cs with
  | nil => simp at hc
  | cons d ds ih =>
    simp only [SWFlist] at h
    rcases List.mem_cons.mp hc with rfl | hc
    · exact h.1
    · exact ih h.2 hc

theorem SWFlist_set {t : Nat} {cs : List (BTreeNode K V)} {c' : BTreeNode K V} {i : Nat}
    (h : SWFlist t cs) (hc' : SWF t false c') : SWFlist t (cs.set i c') := by
  induction cs generalizing i with
  | nil => simpa using h
  | cons d ds ih =>
    simp only [SWFlist] at h
    cases i with
    | zero => exact ⟨hc', h.2⟩
    | succ j => exact ⟨h.1, ih h.2⟩

theorem UDlist_append {d : Nat} {cs₁ cs₂ : List (BTreeNode K V)} :
    UDlist d (cs₁ ++ cs₂) ↔ UDlist d cs₁ ∧ UDlist d cs₂ := by
  induction cs₁ with
  | nil => simp [UDlist]
  | cons c cs ih => simp [UDlist, ih, and_assoc]

theorem UDlist_mem {d : Nat} {cs : List (BTreeNode K V)} {c : BTreeNode K V}
    (h : UDlist d cs) (hc : c ∈ cs) : UD d c := by
  induction cs with
  | nil => simp at hc
  | cons e es ih =>
    simp only [UDlist] at h
    rcases List.mem_cons.mp hc with rfl | hc
    · exact h.1
    · exact ih h.2 hc

theorem UDlist_set {d : Nat} {cs : List (BTreeNode K V)} {c' : BTreeNode K V} {i : Nat}
    (h : UDlist d cs) (hc' : UD d c') : UDlist d (cs.set i c') := by
  induction cs generalizing i with
  | nil => simpa using h
  | cons e es ih =>
    simp only [UDlist] at h
    cases i with
    | zero => exact ⟨hc', h.2⟩
    | succ j => exact ⟨h.1, ih h.2⟩

theorem AllNodesList_mem {P : BTreeNode K V → Prop} {cs : List (BTreeNode K V)}
    {c : BTreeNode K V} (h : AllNodesList P cs) (hc : c ∈ cs) : AllNodes P c := by
  induction cs with
  | nil => simp at hc
  | cons d ds ih =>
    simp only [AllNodesList] at h
    rcases List.mem_cons.mp hc with rfl | hc
    · exact h.1
    · exact ih h.2 hc

theorem WFlist_length [LinearOrder K] {t : Nat} {bs : List (Option K × Option K)}
    {cs : List (BTreeNode K V)} (h : WFlist t bs cs) : bs.length = cs.length := by
  induction bs generalizing cs with
  | nil => cases cs with
    | nil => rfl
    | cons c cs => simp [WFlist] at h
  | cons b bs ih =>
    cases cs with
    | nil => simp [WFlist] at h
    | cons c cs =>
      simp only [WFlist] at h
      simp [ih h.2]

theorem WFlist_append [LinearOrder K] {t : Nat} {bs₁ bs₂ : List (Option K × Option K)}
    {cs₁ cs₂ : List (BTreeNode K V)} (hlen : bs₁.length = cs₁.length) :
    WFlist t (bs₁ ++ bs₂) (cs₁ ++ cs₂) ↔ WFlist t bs₁ cs₁ ∧ WFlist t bs₂ cs₂ := by
  induction bs₁ generalizing cs₁ with
  | nil =>
    obtain rfl : cs₁ = [] := List.length_eq_zero.mp (by simpa using hlen.symm)
    simp [WFlist]
  | cons b bs ih =>
    cases cs₁ with
    | nil => simp at hlen
    | cons c cs =>
      simp only [List.cons_append, WFlist, List.append_eq]
      rw [ih (by simpa using hlen)]
      simp [and_assoc]

theorem WFlist_get? [LinearOrder K] {t : Nat} {bs : List (Option K × Option K)}
    {cs : List (BTreeNode K V)} {i : Nat} {b : Option K × Option K} {c : BTreeNode K V}
    (h : WFlist t bs cs) (hb : bs.get? i = some b) (hc : cs.get? i = some c) :
    WF t false b.1 b.2 c := by
  induction bs generalizing cs i with
  | nil => simp at hb
  | cons b₀ bs ih =>
    cases cs with
    | nil => simp [WFlist] at h
    | cons c₀ cs =>
      simp only [WFlist] at h
      cases i with
      | zero =>
        obtain rfl : b₀ = b := by simpa using hb
        obtain rfl : c₀ = c := by simpa using hc
        exact h.1
      | succ j => exact ih h.2 (by simpa using hb) (by simpa using hc)

theorem WFlist_set [LinearOrder K] {t : Nat} {bs : List (Option K × Option K)}
    {cs : List (BTreeNode K V)} {i : Nat} {b : Option K × Option K} {c' : BTreeNode K V}
    (h : WFlist t bs cs) (hb : bs.get? i = some b) (hc' : WF t false b.1 b.2 c') :
    WFlist t bs (cs.set i c') := by
  induction bs generalizing cs i with
  | nil =>
    cases cs with
    | nil => simpa using h
    | cons c₀ cs => simp [WFlist] at h
  | cons b₀ bs ih =>
    cases cs with
    | nil => simp [WFlist] at h
    | cons c₀ cs =>
      simp only [WFlist] at h
      cases i with
      | zero =>
        obtain rfl : b₀ = b := by simpa using hb
        exact ⟨hc', h.2⟩
      | succ j => exact ⟨h.1, ih h.2 (by simpa using hb)⟩

end PredicateLemmas

section SplitSpec

variable {K V : Type}

theorem splitChildren_leaf {child : BTreeNode K V} {t : Nat} (h : child.isLeaf = true) :
    splitChildren child t = some (child.children, []) := by
  simp [splitChildren, h]

theorem splitChildren_internal {child : BTreeNode K V} {t : Nat}
    (h : child.isLeaf = false) (hl : t ≤ child.children.length) :
    splitChildren child t = some (child.children.take t, child.children.drop t) := by
  simp [splitChildren, h, splitOff, hl]

/-- What one `split_child(index)` call computes, given the bounds that make
every vector operation in it in-range: the child keeps its first `t - 1`
keys and values (plus `cc`), the new right sibling receives the keys and
values from index `t` on (plus `nc`), and the median pair (index `t - 1`)
is inserted into the parent at `index`, with the sibling entering the child
list at `index + 1`. -/
theorem split_child_spec {n child : BTreeNode K V} {i t : Nat}
    {cc nc : List (BTreeNode K V)}
    (ht : n.minDegree = t) (h1 : 1 ≤ t)
    (hc : n.children.get? i = some child)
    (hkl : t ≤ child.keys.length)
    (hvl : t ≤ child.values.length)
    (hscc : splitChildren child t = some (cc, nc))
    (hik : i ≤ n.keys.length) (hiv : i ≤ n.values.length) :
    ∃ medk medv,
      child.keys.get? (t - 1) = some medk ∧
      child.values.get? (t - 1) = some medv ∧
      n.split_child i = some (BTreeNode.mk
        (n.keys.take i ++ medk :: n.keys.drop i)
        (n.values.take i ++ medv :: n.values.drop i)
        (n.children.take i ++
          BTreeNode.mk (child.keys.take (t - 1)) (child.values.take (t - 1))
            cc child.isLeaf child.minDegree ::
          BTreeNode.mk (child.keys.drop t) (child.values.drop t)
            nc child.isLeaf t ::
          n.children.drop (i + 1))
        n.isLeaf n.minDegree) := by
  have hkm : t - 1 < child.keys.length := by omega
  have hvm : t - 1 < child.values.length := by omega
  obtain ⟨medk, hmedk⟩ : ∃ x, child.keys.get? (t - 1) = some x :=
    ⟨_, List.get?_eq_get hkm⟩
  obtain ⟨medv, hmedv⟩ : ∃ x, child.values.get? (t - 1) = some x :=
    ⟨_, List.get?_eq_get hvm⟩
  refine ⟨medk, medv, hmedk, hmedv, ?_⟩
  have hilt : i < n.children.length := (List.get?_eq_some.mp hc).1
  have hsk : splitOff child.keys t =
      some (child.keys.take t, child.keys.drop t) :=
    splitOff_eq_some.mpr ⟨hkl, rfl⟩
  have hsv : splitOff child.values t =
      some (child.values.take t, child.values.drop t) :=
    splitOff_eq_some.mpr ⟨hvl, rfl⟩
  have h2 : t - 1 + 1 = t := by omega
  have htake_k : child.keys.take t = child.keys.take (t - 1) ++ [medk] := by
    have h3 : child.keys[t - 1]? = some medk := by
      rw [← List.get?_eq_getElem?]
      exact hmedk
    calc child.keys.take t = child.keys.take (t - 1 + 1) := by rw [h2]
    _ = child.keys.take (t - 1) ++ child.keys[t - 1]?.toList := List.take_succ
    _ = child.keys.take (t - 1) ++ [medk] := by rw [h3]; rfl
  have htake_v : child.values.take t = child.values.take (t - 1) ++ [medv] := by
    have h3 : child.values[t - 1]? = some medv := by
      rw [← List.get?_eq_getElem?]
      exact hmedv
    calc child.values.take t = child.values.take (t - 1 + 1) := by rw [h2]
    _ = child.values.take (t - 1) ++ child.values[t - 1]?.toList := List.take_succ
    _ = child.values.take (t - 1) ++ [medv] := by rw [h3]; rfl
  have hpk : popLast (child.keys.take t) = some (child.keys.take (t - 1), medk) :=
    popLast_eq_some.mpr htake_k
  have hpv : popLast (child.values.take t) = some (child.values.take (t - 1), medv) :=
    popLast_eq_some.mpr htake_v
  have hvik : vinsert n.keys i medk = some (n.keys.take i ++ medk :: n.keys.drop i) :=
    vinsert_eq_some.mpr ⟨hik, rfl⟩
  have hviv : vinsert n.values i medv =
      some (n.values.take i ++ medv :: n.values.drop i) :=
    vinsert_eq_some.mpr ⟨hiv, rfl⟩
  set child' : BTreeNode K V :=
    BTreeNode.mk (child.keys.take (t - 1)) (child.values.take (t - 1))
      cc child.isLeaf child.minDegree with hchild'
  set newChild : BTreeNode K V :=
    BTreeNode.mk (child.keys.drop t) (child.values.drop t) nc child.isLeaf t
    with hnewChild
  have hset : n.children.set i child' =
      n.children.take i ++ child' :: n.children.drop (i + 1) := by
    rw [List.set_eq_take_append_cons_drop, if_pos hilt]
  have hlen_take : (n.children.take i).length = i := by
    simp [List.length_take]
    omega
  have hvic : vinsert (n.children.set i child') (i + 1) newChild =
      some (n.children.take i ++ child' :: newChild :: n.children.drop (i + 1)) := by
    apply vinsert_eq_some.mpr
    constructor
    · simp only [List.length_set]
      omega
    · rw [hset, List.take_append_eq_append_take, List.drop_append_eq_append_drop,
        hlen_take]
      have e1 : (n.children.take i).take (i + 1) = n.children.take i := by
        apply List.take_of_length_le
        omega
      have e2 : i + 1 - i = 1 := by omega
      have e3 : (n.children.take i).drop (i + 1) = [] := by
        apply List.drop_eq_nil_of_le
        omega
      rw [e1, e2, e3]
      simp
  simp only [BTreeNode.split_child, bind, ht, hc, hsk, hsv, hscc, hpk, hpv,
    Option.some_bind, Option.pure_def]
  rw [hvik]
  simp only [Option.some_bind]
  rw [hviv]
  simp only [Option.some_bind]
  rw [hvic]
  simp only [Option.some_bind]

end SplitSpec

section FlattenLemmas

variable {K V : Type}

theorem glue_split_at_pair {csA csB : List (BTreeNode K V)} {psA psB : List (K × V)}
    {p : K × V} (h : csA.length = psA.length + 1) :
    glue (csA ++ csB) (psA ++ p :: psB) = glue csA psA ++ p :: glue csB psB := by
  induction psA generalizing csA with
  | nil =>
    obtain ⟨c, rfl⟩ : ∃ c, csA = [c] := by
      cases csA with
      | nil => simp at h
      | cons c cs =>
        cases cs with
        | nil => exact ⟨c, rfl⟩
        | cons d ds => simp at h
    simp [glue]
  | cons q qs ih =>
    cases csA with
    | nil => simp at h
    | cons c cs =>
      simp only [List.cons_append, glue, List.append_eq]
      rw [ih (by simpa using h)]
      simp

theorem glue_set {cs : List (BTreeNode K V)} {ps : List (K × V)} {pos : Nat}
    {c : BTreeNode K V} (hc : cs.get? pos = some c) (c' : BTreeNode K V) :
    ∃ A B, glue cs ps = A ++ inorder c ++ B ∧
      glue (cs.set pos c') ps = A ++ inorder c' ++ B := by
  induction cs generalizing ps pos with
  | nil => simp at hc
  | cons d ds ih =>
    cases pos with
    | zero =>
      obtain rfl : d = c := by simpa using hc
      cases ps with
      | nil => exact ⟨[], glue ds [], by simp [glue], by simp [glue]⟩
      | cons p ps' => exact ⟨[], p :: glue ds ps', by simp [glue], by simp [glue]⟩
    | succ j =>
      cases ps with
      | nil =>
        obtain ⟨A, B, h1, h2⟩ := @ih [] j (by simpa using hc)
        exact ⟨inorder d ++ A, B, by simp [glue, h1], by simp [glue, h2]⟩
      | cons p ps' =>
        obtain ⟨A, B, h1, h2⟩ := @ih ps' j (by simpa using hc)
        exact ⟨inorder d ++ p :: A, B, by simp [glue, h1], by simp [glue, h2]⟩

theorem glue_set' (ps : List (K × V)) {cs : List (BTreeNode K V)} {pos : Nat}
    {c : BTreeNode K V} (hc : cs.get? pos = some c) (c' : BTreeNode K V) :
    ∃ A B, glue cs ps = A ++ inorder c ++ B ∧
      glue (cs.set pos c') ps = A ++ inorder c' ++ B :=
  @glue_set K V cs ps pos c hc c'

theorem perm_insert_segment {A B X Y : List (K × V)} {p : K × V}
    (h : X.Perm (p :: Y)) :
    (A ++ (X ++ B)).Perm (p :: (A ++ (Y ++ B))) := by
  have h1 : (A ++ (X ++ B)).Perm (A ++ ((p :: Y) ++ B)) :=
    List.Perm.append_left A (h.append_right B)
  have h2 : A ++ ((p :: Y) ++ B) = A ++ p :: (Y ++ B) := by simp
  have h3 : (A ++ p :: (Y ++ B)).Perm (p :: (A ++ (Y ++ B))) := List.perm_middle
  exact (h2 ▸ h1).trans h3

theorem zip_take_drop {ks : List K} {vs : List V} (pos : Nat)
    (hlen : vs.length = ks.length) :
    ks.zip vs = (ks.take pos).zip (vs.take pos) ++ (ks.drop pos).zip (vs.drop pos) := by
  conv_lhs => rw [← List.take_append_drop pos ks, ← List.take_append_drop pos vs]
  rw [List.zip_append (by simp [hlen])]

theorem drop_eq_cons_of_get? {l : List α} {i : Nat} {a : α}
    (h : l.get? i = some a) : l.drop i = a :: l.drop (i + 1) := by
  induction l generalizing i with
  | nil => simp at h
  | cons x xs ih =>
    cases i with
    | zero =>
      obtain rfl : x = a := by simpa using h
      simp
    | succ j =>
      simp only [List.drop_succ_cons]
      exact ih (by simpa using h)

/-- Flattening identity of a split: the left piece, the promoted median
pair, and the right piece flatten back to the original child. -/
theorem split_piece_inorder {c : BTreeNode K V} {t : Nat}
    {cc nc : List (BTreeNode K V)} {medk : K} {medv : V} {md1 md2 : Nat}
    (h1 : 1 ≤ t)
    (hscc : splitChildren c t = some (cc, nc))
    (hmedk : c.keys.get? (t - 1) = some medk)
    (hmedv : c.values.get? (t - 1) = some medv)
    (hlen : c.values.length = c.keys.length)
    (hleaf : c.isLeaf = true → c.children = [])
    (hclen : c.isLeaf = false → c.children.length = c.keys.length + 1) :
    inorder (BTreeNode.mk (c.keys.take (t - 1)) (c.values.take (t - 1))
        cc c.isLeaf md1) ++
      (medk, medv) :: inorder (BTreeNode.mk (c.keys.drop t) (c.values.drop t)
        nc c.isLeaf md2) = inorder c := by
  have hkm : t - 1 < c.keys.length := (List.get?_eq_some.mp hmedk).1
  have hvm : t - 1 < c.values.length := (List.get?_eq_some.mp hmedv).1
  have hzip : c.keys.zip c.values =
      (c.keys.take (t - 1)).zip (c.values.take (t - 1)) ++
        (medk, medv) :: (c.keys.drop t).zip (c.values.drop t) := by
    rw [zip_take_drop (t - 1) hlen, drop_eq_cons_of_get? hmedk,
      drop_eq_cons_of_get? hmedv]
    have ht' : t - 1 + 1 = t := by omega
    rw [List.zip_cons_cons, ht']
  cases c with
  | mk ks vs ccs lf md =>
    simp only [keys_mk, values_mk, children_mk, isLeaf_mk] at *
    cases lf with
    | true =>
      obtain rfl : ccs = [] := hleaf rfl
      obtain ⟨rfl, rfl⟩ : cc = [] ∧ nc = [] := by
        have := @splitChildren_leaf K V (BTreeNode.mk ks vs [] true md) t (by simp)
        rw [this] at hscc
        simpa [eq_comm] using hscc
      rw [inorder, inorder, inorder]
      rw [glue, glue, glue, hzip]
    | false =>
      have hccslen : t ≤ ccs.length := by
        have := hclen rfl
        have hkm' : t - 1 < ks.length := hkm
        omega
      obtain ⟨rfl, rfl⟩ : cc = ccs.take t ∧ nc = ccs.drop t := by
        have := @splitChildren_internal K V (BTreeNode.mk ks vs ccs false md) t
          (by simp) (by simpa using hccslen)
        rw [this] at hscc
        simpa [eq_comm] using hscc
      rw [inorder, inorder, inorder]
      conv_rhs => rw [← List.take_append_drop t ccs, hzip]
      rw [glue_split_at_pair]
      simp only [List.length_take, List.length_zip, List.length_take]
      have h2 : t - 1 < vs.length := hvm
      have h3 : t - 1 < ks.length := hkm
      omega

/-- `split_piece_inorder` with the two stored degrees passed by position. -/
theorem split_piece_inorder2 (md1 md2 : Nat) {c : BTreeNode K V} {t : Nat}
    {cc nc : List (BTreeNode K V)} {medk : K} {medv : V}
    (h1 : 1 ≤ t)
    (hscc : splitChildren c t = some (cc, nc))
    (hmedk : c.keys.get? (t - 1) = some medk)
    (hmedv : c.values.get? (t - 1) = some medv)
    (hlen : c.values.length = c.keys.length)
    (hleaf : c.isLeaf = true → c.children = [])
    (hclen : c.isLeaf = false → c.children.length = c.keys.length + 1) :
    inorder (BTreeNode.mk (c.keys.take (t - 1)) (c.values.take (t - 1))
        cc c.isLeaf md1) ++
      (medk, medv) :: inorder (BTreeNode.mk (c.keys.drop t) (c.values.drop t)
        nc c.isLeaf md2) = inorder c :=
  @split_piece_inorder K V c t cc nc medk medv md1 md2 h1 hscc hmedk hmedv
    hlen hleaf hclen

theorem glue_cons_shape (cs : List (BTreeNode K V)) (ps : List (K × V)) :
    ∃ TL, ∀ y : BTreeNode K V, glue (y :: cs) ps = inorder y ++ TL := by
  cases ps with
  | nil => exact ⟨glue cs [], fun y => by rw [glue]⟩
  | cons p ps' => exact ⟨p :: glue cs ps', fun y => by rw [glue]⟩

theorem get?_append_self {A B : List α} {x : α} :
    (A ++ x :: B).get? A.length = some x := by
  rw [List.get?_append_right (le_refl _)]
  simp

theorem get?_append_self_succ {A B : List α} {x y : α} :
    (A ++ x :: y :: B).get? (A.length + 1) = some y := by
  rw [List.get?_append_right (by omega)]
  simp

end FlattenLemmas

section StructuralInsert

variable {K V : Type}

theorem SWFlist_take {t i : Nat} {cs : List (BTreeNode K V)} (h : SWFlist t cs) :
    SWFlist t (cs.take i) :=
  (SWFlist_append.mp (by rw [List.take_append_drop]; exact h)).1

theorem SWFlist_drop {t i : Nat} {cs : List (BTreeNode K V)} (h : SWFlist t cs) :
    SWFlist t (cs.drop i) :=
  (SWFlist_append.mp (by rw [List.take_append_drop i]; exact h)).2

theorem SWF_intro {t : Nat} {rt : Bool} {ks : List K} {vs : List V} {cs lf md}
    (h1 : md = t) (h2 : vs.length = ks.length) (h3 : ks.length ≤ 2 * t - 1)
    (h4 : rt = false → t - 1 ≤ ks.length)
    (h5 : lf = true → cs = []) (h6 : lf = false → cs.length = ks.length + 1)
    (h7 : SWFlist t cs) :
    SWF t rt (BTreeNode.mk ks vs cs lf md) := by
  rw [SWF]
  cases lf
  · simp_all
  · simp_all

theorem SWF_elim {t : Nat} {rt : Bool} {ks : List K} {vs : List V} {cs lf md}
    (h : SWF t rt (BTreeNode.mk ks vs cs lf md)) :
    md = t ∧ vs.length = ks.length ∧ ks.length ≤ 2 * t - 1 ∧
    (rt = false → t - 1 ≤ ks.length) ∧
    (lf = true → cs = []) ∧ (lf = false → cs.length = ks.length + 1) ∧
    SWFlist t cs := by
  rw [SWF] at h
  cases lf
  · simp_all [SWFlist]
  · simp_all [SWFlist]

/-- The two halves produced by splitting a full child are structurally
well-formed non-root nodes with exactly `t - 1` keys each. -/
theorem split_pieces_SWF {t : Nat} {c : BTreeNode K V} {cc nc : List (BTreeNode K V)}
    (h1 : 1 ≤ t) (hc : SWF t false c) (hfull : c.keys.length = 2 * t - 1)
    (hscc : splitChildren c t = some (cc, nc)) :
    SWF t false (BTreeNode.mk (c.keys.take (t - 1)) (c.values.take (t - 1))
      cc c.isLeaf c.minDegree) ∧
    SWF t false (BTreeNode.mk (c.keys.drop t) (c.values.drop t) nc c.isLeaf t) ∧
    (c.keys.take (t - 1)).length = t - 1 ∧ (c.keys.drop t).length = t - 1 := by
  cases c with
  | mk ks vs ccs lf md =>
    obtain ⟨hmd, hvs, hkle, -, hlfT, hlfF, hswl⟩ := SWF_elim hc
    simp only [keys_mk, values_mk, children_mk, isLeaf_mk, minDegree_mk] at *
    have hklen : ks.length = 2 * t - 1 := hfull
    cases lf with
    | true =>
      obtain rfl : ccs = [] := hlfT rfl
      obtain ⟨rfl, rfl⟩ : cc = [] ∧ nc = [] := by
        rw [@splitChildren_leaf K V (BTreeNode.mk ks vs [] true md) t (by simp)]
          at hscc
        simpa [eq_comm] using hscc
      refine ⟨?_, ?_, ?_, ?_⟩
      · exact SWF_intro hmd (by simp [hvs]) (by simp; omega) (by intro; simp; omega)
          (fun _ => rfl) (by simp) trivial
      · exact SWF_intro rfl (by simp [hvs]) (by simp; omega) (by intro; simp; omega)
          (fun _ => rfl) (by simp) trivial
      · simp
        omega
      · simp
        omega
    | false =>
      have hccs : ccs.length = ks.length + 1 := hlfF rfl
      obtain ⟨rfl, rfl⟩ : cc = ccs.take t ∧ nc = ccs.drop t := by
        rw [@splitChildren_internal K V (BTreeNode.mk ks vs ccs false md) t
          (by simp) (by simp; omega)] at hscc
        simpa [eq_comm] using hscc
      refine ⟨?_, ?_, ?_, ?_⟩
      · exact SWF_intro hmd (by simp [hvs]) (by simp; omega) (by intro; simp; omega)
          (by simp) (by intro; simp; omega) (SWFlist_take hswl)
      · exact SWF_intro rfl (by simp [hvs]) (by simp; omega) (by intro; simp; omega)
          (by simp) (by intro; simp; omega) (SWFlist_drop hswl)
      · simp
        omega
      · simp
        omega

theorem INFleafEq [LinearOrder K] {n : BTreeNode K V} (hlf : n.isLeaf = true)
    {k : K} {v : V} {ks' : List K} {vs' : List V}
    (hk : vinsert n.keys (findPos n.keys k) k = some ks')
    (hv : vinsert n.values (findPos n.keys k) v = some vs') :
    n.insert_non_full k v = some (BTreeNode.mk ks' vs' n.children n.isLeaf n.minDegree) := by
  rw [BTreeNode.insert_non_full.eq_def]
  simp only [hlf, if_pos]
  rw [hk, hv]

theorem INFnosplitEq [LinearOrder K] {n c c' : BTreeNode K V} {k : K} {v : V}
    (hlf : n.isLeaf = false)
    (hget : n.children.get? (findPos n.keys k) = some c)
    (hnf : ¬(c.keys.length = 2 * n.minDegree - 1))
    (hrec : c.insert_non_full k v = some c') :
    n.insert_non_full k v = some (BTreeNode.mk n.keys n.values
      (n.children.set (findPos n.keys k) c') n.isLeaf n.minDegree) := by
  rw [BTreeNode.insert_non_full.eq_def]
  simp only [hlf, Bool.false_eq_true, if_false]
  split
  · simp_all
  · rename_i c₀ hc₀
    rw [hget] at hc₀
    obtain rfl : c₀ = c := by simpa [eq_comm] using hc₀
    rw [if_neg hnf, hrec]

theorem INFsplitEq [LinearOrder K] {n c n' c' c'' : BTreeNode K V} {k kp : K} {v : V}
    (hlf : n.isLeaf = false)
    (hget : n.children.get? (findPos n.keys k) = some c)
    (hfull : c.keys.length = 2 * n.minDegree - 1)
    (hsplit : n.split_child (findPos n.keys k) = some n')
    (hkp : n'.keys.get? (findPos n.keys k) = some kp)
    (hget' : n'.children.get? (if kp < k then findPos n.keys k + 1 else findPos n.keys k) = some c')
    (hrec : c'.insert_non_full k v = some c'') :
    n.insert_non_full k v = some (BTreeNode.mk n'.keys n'.values
      (n'.children.set (if kp < k then findPos n.keys k + 1 else findPos n.keys k) c'')
      n'.isLeaf n'.minDegree) := by
  rw [BTreeNode.insert_non_full.eq_def]
  simp only [hlf, Bool.false_eq_true, if_false]
  split
  · simp_all
  · rename_i c₀ hc₀
    rw [hget] at hc₀
    obtain rfl : c₀ = c := by simpa [eq_comm] using hc₀
    rw [if_pos hfull]
    split
    · simp_all
    · rename_i n₀ hn₀
      rw [hsplit] at hn₀
      obtain rfl : n₀ = n' := by simpa [eq_comm] using hn₀
      rw [hkp]
      split
      · simp_all
      · rename_i kp₀ hkp₀
        obtain rfl : kp₀ = kp := by simpa [eq_comm] using hkp₀
        split
        · simp_all
        · rename_i c₀' hc₀'
          rw [hget'] at hc₀'
          obtain rfl : c₀' = c' := by simpa [eq_comm] using hc₀'
          rw [hrec]

theorem get?_append_self' {A B : List α} {x : α} {i : Nat} (h : A.length = i) :
    (A ++ x :: B).get? i = some x := by
  subst h
  exact get?_append_self

theorem get?_append_self_succ' {A B : List α} {x y : α} {i : Nat} (h : A.length = i) :
    (A ++ x :: y :: B).get? (i + 1) = some y := by
  subst h
  exact get?_append_self_succ

theorem SWF_minDegree {t : Nat} {rt : Bool} {n : BTreeNode K V} (h : SWF t rt n) :
    n.minDegree = t := by
  cases n
  exact (SWF_elim h).1

theorem SWF_values_len {t : Nat} {rt : Bool} {n : BTreeNode K V} (h : SWF t rt n) :
    n.values.length = n.keys.length := by
  cases n
  exact (SWF_elim h).2.1

theorem SWF_keys_le {t : Nat} {rt : Bool} {n : BTreeNode K V} (h : SWF t rt n) :
    n.keys.length ≤ 2 * t - 1 := by
  cases n
  exact (SWF_elim h).2.2.1

theorem SWF_leaf_children {t : Nat} {rt : Bool} {n : BTreeNode K V} (h : SWF t rt n) :
    n.isLeaf = true → n.children = [] := by
  cases n
  exact (SWF_elim h).2.2.2.2.1

theorem SWF_children_len {t : Nat} {rt : Bool} {n : BTreeNode K V} (h : SWF t rt n) :
    n.isLeaf = false → n.children.length = n.keys.length + 1 := by
  cases n
  exact (SWF_elim h).2.2.2.2.2.1

theorem SWF_children_list {t : Nat} {rt : Bool} {n : BTreeNode K V} (h : SWF t rt n) :
    SWFlist t n.children := by
  cases n
  exact (SWF_elim h).2.2.2.2.2.2

theorem UD_pos {d : Nat} {n : BTreeNode K V} (h : UD d n) : 1 ≤ d := by
  cases n with
  | mk ks vs cs lf md =>
    rw [UD] at h
    split at h
    · omega
    · omega

theorem UDlist_sublist {d : Nat} {cs₁ cs₂ : List (BTreeNode K V)}
    (hs : List.Sublist cs₁ cs₂) (h : UDlist d cs₂) : UDlist d cs₁ := by
  induction hs with
  | slnil => trivial
  | cons c _ ih =>
    rw [UDlist] at h
    exact ih h.2
  | cons₂ c _ ih =>
    rw [UDlist] at h ⊢
    exact ⟨h.1, ih h.2⟩

theorem UDlist_take {d i : Nat} {cs : List (BTreeNode K V)} (h : UDlist d cs) :
    UDlist d (cs.take i) :=
  (UDlist_append.mp (by rw [List.take_append_drop]; exact h)).1

theorem UDlist_drop {d i : Nat} {cs : List (BTreeNode K V)} (h : UDlist d cs) :
    UDlist d (cs.drop i) :=
  (UDlist_append.mp (by rw [List.take_append_drop i]; exact h)).2

theorem splitChildren_sublist {c : BTreeNode K V} {t : Nat}
    {cc nc : List (BTreeNode K V)} (h : splitChildren c t = some (cc, nc)) :
    List.Sublist cc c.children ∧ List.Sublist nc c.children := by
  unfold splitChildren at h
  split at h
  · obtain ⟨rfl, rfl⟩ : c.children = cc ∧ [] = nc := by simpa using h
    exact ⟨List.Sublist.refl _, List.nil_sublist _⟩
  · obtain ⟨-, h2⟩ := splitOff_eq_some.mp h
    obtain ⟨rfl, rfl⟩ : cc = c.children.take t ∧ nc = c.children.drop t := by
      constructor
      · exact congrArg Prod.fst h2
      · exact congrArg Prod.snd h2
    exact ⟨List.take_sublist _ _, List.drop_sublist _ _⟩

/-- A split piece (same leaf flag, children a sublist of the original
child's children) keeps the child's uniform leaf depth. -/
theorem UD_piece {d : Nat} {c : BTreeNode K V} {cc : List (BTreeNode K V)}
    {ks' : List K} {vs' : List V} {md' : Nat}
    (h : UD d c) (hcc : List.Sublist cc c.children) :
    UD d (BTreeNode.mk ks' vs' cc c.isLeaf md') := by
  cases c with
  | mk ks vs ccs lf md =>
    simp only [children_mk, isLeaf_mk] at hcc ⊢
    rw [UD] at h ⊢
    cases lf with
    | true => simpa using h
    | false =>
      simp only [Bool.false_eq_true, if_false] at h ⊢
      exact ⟨h.1, UDlist_sublist hcc h.2⟩

/-- One `insert_non_full` call on a structurally well-formed non-full node
always succeeds, preserves structural well-formedness, adds exactly the
pair `(k, v)` to the flattened contents, and grows the node's own key count
by at most one. -/
theorem insert_non_full_SWF [LinearOrder K] {t : Nat} (h1 : 1 ≤ t) (k : K) (v : V) :
    ∀ n : BTreeNode K V, ∀ rt : Bool, SWF t rt n → n.keys.length < 2 * t - 1 →
      ∃ n', n.insert_non_full k v = some n' ∧ SWF t rt n' ∧
        (inorder n').Perm ((k, v) :: inorder n) ∧
        n.keys.length ≤ n'.keys.length ∧ n'.keys.length ≤ n.keys.length + 1 ∧
        (n.isLeaf = true → n'.keys.length = n.keys.length + 1) ∧
        (∀ d, UD d n → UD d n') ∧
        n'.isLeaf = n.isLeaf := by
  apply BTreeNode.heightInduction
  intro n ih rt hswf hnf
  cases n with
  | mk ks vs cs lf md =>
  obtain ⟨hmd, hvs, hkle, hmin, hlfT, hlfF, hswl⟩ := SWF_elim hswf
  subst md
  simp only [keys_mk] at hnf
  have hposle : findPos ks k ≤ ks.length := findPos_le_length ks k
  cases lf with
  | true =>
    obtain rfl : cs = [] := hlfT rfl
    have hvk : vinsert ks (findPos ks k) k =
        some (ks.take (findPos ks k) ++ k :: ks.drop (findPos ks k)) :=
      vinsert_eq_some.mpr ⟨hposle, rfl⟩
    have hvv : vinsert vs (findPos ks k) v =
        some (vs.take (findPos ks k) ++ v :: vs.drop (findPos ks k)) :=
      vinsert_eq_some.mpr ⟨by omega, rfl⟩
    refine ⟨_, INFleafEq (n := BTreeNode.mk ks vs [] true t) rfl hvk hvv,
      ?_, ?_, ?_, ?_, ?_, ?_, ?_⟩
    · simp only [children_mk, isLeaf_mk, minDegree_mk]
      exact SWF_intro rfl
        (by simp [List.length_take, List.length_drop]; omega)
        (by simp [List.length_take, List.length_drop]; omega)
        (by intro hrt; have := hmin hrt; simp [List.length_take, List.length_drop]; omega)
        (fun _ => rfl) (by simp) trivial
    · rw [inorder, inorder]
      rw [List.zip_append (by simp [List.length_take]; omega), List.zip_cons_cons]
      rw [zip_take_drop (findPos ks k) hvs]
      exact List.perm_middle
    · simp [List.length_take, List.length_drop]
      omega
    · simp [List.length_take, List.length_drop]
      omega
    · intro
      simp [List.length_take, List.length_drop]
      omega
    · intro d hd
      rw [UD] at hd ⊢
      simpa using hd
    · rfl
  | false =>
    have hcs : cs.length = ks.length + 1 := hlfF rfl
    have hposc : findPos ks k < cs.length := by omega
    obtain ⟨c, hget⟩ : ∃ c, cs.get? (findPos ks k) = some c :=
      ⟨_, List.get?_eq_get hposc⟩
    have hcmem : c ∈ cs := List.get?_mem hget
    have hcSWF : SWF t false c := SWFlist_mem hswl hcmem
    have hchlt : c.height < (BTreeNode.mk ks vs cs false t).height :=
      height_lt_of_mem (by simpa using hcmem)
    have hcvals : c.values.length = c.keys.length := SWF_values_len hcSWF
    have hckle : c.keys.length ≤ 2 * t - 1 := SWF_keys_le hcSWF
    have htklen : (ks.take (findPos ks k)).length = findPos ks k := by
      simp [List.length_take]
      omega
    have htclen : (cs.take (findPos ks k)).length = findPos ks k := by
      simp [List.length_take]
      omega
    by_cases hfull : c.keys.length = 2 * t - 1
    · -- full child: split first, then descend into one of the halves
      have hkck : t ≤ c.keys.length := by omega
      have hkcv : t ≤ c.values.length := by omega
      obtain ⟨cc, nc, hscc⟩ : ∃ cc nc, splitChildren c t = some (cc, nc) := by
        cases hclf : c.isLeaf
        · refine ⟨_, _, splitChildren_internal hclf ?_⟩
          have := SWF_children_len hcSWF hclf
          omega
        · exact ⟨_, _, splitChildren_leaf hclf⟩
      obtain ⟨hswf1, hswf2, hlen1', hlen2'⟩ := split_pieces_SWF h1 hcSWF hfull hscc
      obtain ⟨medk, medv, hmedk, hmedv, hsplit⟩ :=
        @split_child_spec K V (BTreeNode.mk ks vs cs false t) c (findPos ks k) t
          cc nc (by simp) h1 hget hkck hkcv hscc
          (by simpa using hposle) (by simp [hvs]; omega)
      simp only [keys_mk, values_mk, children_mk, isLeaf_mk, minDegree_mk] at hsplit
      have hkp : (ks.take (findPos ks k) ++ medk :: ks.drop (findPos ks k)).get?
          (findPos ks k) = some medk := get?_append_self' htklen
      have hgetl : (cs.take (findPos ks k) ++
          BTreeNode.mk (c.keys.take (t - 1)) (c.values.take (t - 1)) cc c.isLeaf
            c.minDegree ::
          BTreeNode.mk (c.keys.drop t) (c.values.drop t) nc c.isLeaf t ::
          cs.drop (findPos ks k + 1)).get? (findPos ks k) =
          some (BTreeNode.mk (c.keys.take (t - 1)) (c.values.take (t - 1)) cc
            c.isLeaf c.minDegree) := get?_append_self' htclen
      have hgetr : (cs.take (findPos ks k) ++
          BTreeNode.mk (c.keys.take (t - 1)) (c.values.take (t - 1)) cc c.isLeaf
            c.minDegree ::
          BTreeNode.mk (c.keys.drop t) (c.values.drop t) nc c.isLeaf t ::
          cs.drop (findPos ks k + 1)).get? (findPos ks k + 1) =
          some (BTreeNode.mk (c.keys.drop t) (c.values.drop t) nc c.isLeaf t) :=
        get?_append_self_succ' htclen
      have hget' : (cs.take (findPos ks k) ++
          BTreeNode.mk (c.keys.take (t - 1)) (c.values.take (t - 1)) cc c.isLeaf
            c.minDegree ::
          BTreeNode.mk (c.keys.drop t) (c.values.drop t) nc c.isLeaf t ::
          cs.drop (findPos ks k + 1)).get?
            (if medk < k then findPos ks k + 1 else findPos ks k) =
          some (if medk < k then
              BTreeNode.mk (c.keys.drop t) (c.values.drop t) nc c.isLeaf t
            else
              BTreeNode.mk (c.keys.take (t - 1)) (c.values.take (t - 1)) cc
                c.isLeaf c.minDegree) := by
        by_cases hdir : medk < k
        · simp only [if_pos hdir]
          exact hgetr
        · simp only [if_neg hdir]
          exact hgetl
      have hc'SWF : SWF t false (if medk < k then
          BTreeNode.mk (c.keys.drop t) (c.values.drop t) nc c.isLeaf t
        else
          BTreeNode.mk (c.keys.take (t - 1)) (c.values.take (t - 1)) cc
            c.isLeaf c.minDegree) := by
        by_cases hdir : medk < k
        · simpa [if_pos hdir] using hswf2
        · simpa [if_neg hdir] using hswf1
      have hc'keys : (if medk < k then
          BTreeNode.mk (c.keys.drop t) (c.values.drop t) nc c.isLeaf t
        else
          BTreeNode.mk (c.keys.take (t - 1)) (c.values.take (t - 1)) cc
            c.isLeaf c.minDegree).keys.length = t - 1 := by
        by_cases hdir : medk < k
        · simpa [if_pos hdir] using hlen2'
        · simpa [if_neg hdir] using hlen1'
      have hc'lt : (if medk < k then
          BTreeNode.mk (c.keys.drop t) (c.values.drop t) nc c.isLeaf t
        else
          BTreeNode.mk (c.keys.take (t - 1)) (c.values.take (t - 1)) cc
            c.isLeaf c.minDegree).height <
          (BTreeNode.mk ks vs cs false t).height := by
        apply split_child_height hsplit
        simpa using List.get?_mem hget'
      obtain ⟨c'', hrec, hc''SWF, hpermc, -, -, -, hud, -⟩ :=
        ih _ hc'lt false hc'SWF (by rw [hc'keys]; omega)
      have heq := INFsplitEq (n := BTreeNode.mk ks vs cs false t) rfl hget
        (by simpa using hfull) hsplit hkp hget' hrec
      simp only [keys_mk, values_mk, children_mk, isLeaf_mk, minDegree_mk] at heq
      refine ⟨_, heq, ?_, ?_, ?_, ?_, ?_, ?_, ?_⟩
      · -- SWF of the final node
        apply SWF_intro rfl
        · simp [List.length_take, List.length_drop, List.length_set]
          omega
        · simp [List.length_take, List.length_drop]
          omega
        · intro hrt
          have := hmin hrt
          simp [List.length_take, List.length_drop]
          omega
        · simp
        · intro
          simp [List.length_set, List.length_take, List.length_drop]
          omega
        · apply SWFlist_set
          · refine SWFlist_append.mpr ⟨SWFlist_take hswl, hswf1, hswf2, SWFlist_drop hswl⟩
          · exact hc''SWF
      · -- permutation of the flattened contents
        obtain ⟨A, B, hAB1, hAB2⟩ := glue_set'
          ((ks.take (findPos ks k) ++ medk :: ks.drop (findPos ks k)).zip
            (vs.take (findPos ks k) ++ medv :: vs.drop (findPos ks k)))
          hget' c''
        obtain ⟨TL, hTL⟩ := glue_cons_shape (cs.drop (findPos ks k + 1))
          ((ks.drop (findPos ks k)).zip (vs.drop (findPos ks k)))
        have hzipsplit : ks.zip vs =
            (ks.take (findPos ks k)).zip (vs.take (findPos ks k)) ++
              (ks.drop (findPos ks k)).zip (vs.drop (findPos ks k)) :=
          zip_take_drop _ hvs
        have hcseq : cs = cs.take (findPos ks k) ++ c :: cs.drop (findPos ks k + 1) := by
          conv_lhs => rw [← List.take_append_drop (findPos ks k) cs]
          rw [drop_eq_cons_of_get? hget]
        have hzip2 : (ks.take (findPos ks k) ++ medk :: ks.drop (findPos ks k)).zip
            (vs.take (findPos ks k) ++ medv :: vs.drop (findPos ks k)) =
            (ks.take (findPos ks k)).zip (vs.take (findPos ks k)) ++
              (medk, medv) :: (ks.drop (findPos ks k)).zip (vs.drop (findPos ks k)) := by
          rw [List.zip_append (by simp [List.length_take]; omega), List.zip_cons_cons]
        have hpieces : inorder (BTreeNode.mk (c.keys.take (t - 1))
              (c.values.take (t - 1)) cc c.isLeaf c.minDegree) ++
            (medk, medv) :: inorder (BTreeNode.mk (c.keys.drop t)
              (c.values.drop t) nc c.isLeaf t) = inorder c :=
          split_piece_inorder h1 hscc hmedk hmedv hcvals
            (SWF_leaf_children hcSWF) (SWF_children_len hcSWF)
        have hn2n : glue (cs.take (findPos ks k) ++
            BTreeNode.mk (c.keys.take (t - 1)) (c.values.take (t - 1)) cc c.isLeaf
              c.minDegree ::
            BTreeNode.mk (c.keys.drop t) (c.values.drop t) nc c.isLeaf t ::
            cs.drop (findPos ks k + 1))
            ((ks.take (findPos ks k) ++ medk :: ks.drop (findPos ks k)).zip
              (vs.take (findPos ks k) ++ medv :: vs.drop (findPos ks k))) =
            glue cs (ks.zip vs) := by
          rw [hzip2]
          rw [glue_append (by simp [List.length_take, List.length_zip]; omega)]
          rw [glue]
          rw [hTL]
          conv_rhs => rw [hcseq, hzipsplit]
          rw [glue_append (by simp [List.length_take, List.length_zip]; omega)]
          rw [hTL c]
          rw [← hpieces]
          simp [List.append_assoc]
        rw [inorder, inorder]
        rw [hAB2]
        have hrew : glue cs (ks.zip vs) = A ++ inorder
            (if medk < k then
              BTreeNode.mk (c.keys.drop t) (c.values.drop t) nc c.isLeaf t
            else
              BTreeNode.mk (c.keys.take (t - 1)) (c.values.take (t - 1)) cc
                c.isLeaf c.minDegree) ++ B := by
          rw [← hn2n]
          exact hAB1
        rw [hrew]
        simpa [List.append_assoc] using
          perm_insert_segment (A := A) (B := B) hpermc
      · simp [List.length_take, List.length_drop]
        omega
      · simp [List.length_take, List.length_drop]
        omega
      · intro h
        simp at h
      · intro d hd
        rw [UD] at hd ⊢
        simp only [Bool.false_eq_true, if_false] at hd ⊢
        obtain ⟨hd1, hdl⟩ := hd
        refine ⟨hd1, ?_⟩
        apply UDlist_set
        · refine UDlist_append.mpr ⟨UDlist_take hdl, ?_⟩
          rw [UDlist, UDlist]
          have hcUD : UD (d - 1) c := UDlist_mem hdl hcmem
          obtain ⟨hsub1, hsub2⟩ := splitChildren_sublist hscc
          exact ⟨UD_piece hcUD hsub1, UD_piece hcUD hsub2, UDlist_drop hdl⟩
        · apply hud
          by_cases hdir : medk < k
          · rw [if_pos hdir]
            exact UD_piece (UDlist_mem hdl hcmem) (splitChildren_sublist hscc).2
          · rw [if_neg hdir]
            exact UD_piece (UDlist_mem hdl hcmem) (splitChildren_sublist hscc).1
      · rfl
    · -- child not full: descend directly
      have hcnf : c.keys.length < 2 * t - 1 := lt_of_le_of_ne hckle hfull
      obtain ⟨c'', hrec, hc''SWF, hpermc, -, -, -, hud, -⟩ := ih c hchlt false hcSWF hcnf
      have heq := INFnosplitEq (n := BTreeNode.mk ks vs cs false t) rfl hget
        (by simpa using hfull) hrec
      simp only [keys_mk, values_mk, children_mk, isLeaf_mk, minDegree_mk] at heq
      refine ⟨_, heq, ?_, ?_, ?_, ?_, ?_, ?_, ?_⟩
      · exact SWF_intro rfl hvs hkle hmin (by simp)
          (by intro; simp [List.length_set]; omega)
          (SWFlist_set hswl hc''SWF)
      · obtain ⟨A, B, hAB1, hAB2⟩ := glue_set' (ks.zip vs) hget c''
        rw [inorder, inorder]
        rw [hAB2, hAB1]
        simpa [List.append_assoc] using
          perm_insert_segment (A := A) (B := B) hpermc
      · simp
      · simp
      · intro h
        simp at h
      · intro d hd
        rw [UD] at hd ⊢
        simp only [Bool.false_eq_true, if_false] at hd ⊢
        exact ⟨hd.1, UDlist_set hd.2 (hud (d - 1) (UDlist_mem hd.2 hcmem))⟩
      · rfl

theorem UD_leaf {n : BTreeNode K V} (h : n.isLeaf = true) : UD 1 n := by
  cases n with
  | mk ks vs cs lf md =>
    rw [UD]
    simp only [isLeaf_mk] at h
    simp [h]

theorem inorder_new {md : Nat} {lf : Bool} :
    inorder (BTreeNode.new md lf : BTreeNode K V) = [] := by
  rw [BTreeNode.new, inorder]
  rfl

theorem SWF_new {t : Nat} :
    SWF t true (BTreeNode.new t true : BTreeNode K V) := by
  rw [BTreeNode.new]
  exact SWF_intro rfl rfl (by simp) (by intro h; cases h) (fun _ => rfl)
    (by intro h; cases h) trivial

theorem SWF_root_to_child {t : Nat} {n : BTreeNode K V} (h : SWF t true n)
    (hk : t - 1 ≤ n.keys.length) : SWF t false n := by
  cases n with
  | mk ks vs cs lf md =>
    obtain ⟨hmd, hvs, hkle, -, hlfT, hlfF, hswl⟩ := SWF_elim h
    exact SWF_intro hmd hvs hkle (fun _ => hk) hlfT hlfF hswl

/-- One `BTreeMap::insert` on a map satisfying the structural invariant
always succeeds, preserves the invariant, and adds exactly the pair
`(k, v)` to the contents. -/
theorem insert_SWF [LinearOrder K] {t : Nat} (h2 : 2 ≤ t) {m : BTreeMap K V}
    (hm : MapInv t m) (k : K) (v : V) :
    ∃ m', m.insert k v = some m' ∧ MapInv t m' ∧
      (contents m').Perm ((k, v) :: contents m) ∧
      (∀ r r' d, m.root = some r → m'.root = some r' → UD d r →
        UD (if r.keys.length = 2 * t - 1 then d + 1 else d) r') ∧
      (m.root = none → ∀ r', m'.root = some r' → UD 1 r') := by
  have h1 : 1 ≤ t := by omega
  obtain ⟨ro, md'⟩ := m
  obtain ⟨hmd, hro⟩ := hm
  simp only at hmd
  subst md'
  cases ro with
  | none =>
    obtain ⟨r', hr', hr'SWF, hperm, hge, hle, hleaf1, hudt, hlfeq⟩ :=
      insert_non_full_SWF h1 k v (BTreeNode.new t true) true SWF_new
        (by rw [BTreeNode.new]; simp; omega)
    refine ⟨⟨some r', t⟩, ?_, ?_, ?_, ?_, ?_⟩
    · rw [BTreeMap.insert]
      simp only [Option.getD_none, BTreeNode.new, keys_mk, List.length_nil]
      rw [if_neg (by omega)]
      rw [show (BTreeNode.new t true : BTreeNode K V) = BTreeNode.mk [] [] [] true t
        from rfl] at hr'
      simp only [bind, hr', Option.some_bind, Option.pure_def]
    · refine ⟨rfl, hr'SWF, ?_⟩
      have := hleaf1 (by simp [BTreeNode.new])
      rw [BTreeNode.new] at this
      simp at this
      omega
    · simp only [contents]
      rw [inorder_new] at hperm
      exact hperm
    · intro r r'' d hr
      exact absurd hr (by simp)
    · intro hnone r'' hr''
      obtain rfl : r' = r'' := by simpa using hr''
      exact UD_leaf (by simp [hlfeq, BTreeNode.new])
  | some r =>
    obtain ⟨hrSWF, hrpos⟩ := hro
    by_cases hfull : r.keys.length = 2 * t - 1
    · -- root growth
      have hrchild : SWF t false r := SWF_root_to_child hrSWF (by omega)
      have hrvals : r.values.length = r.keys.length := SWF_values_len hrSWF
      obtain ⟨cc, nc, hscc⟩ : ∃ cc nc, splitChildren r t = some (cc, nc) := by
        cases hclf : r.isLeaf
        · refine ⟨_, _, splitChildren_internal hclf ?_⟩
          have := SWF_children_len hrSWF hclf
          omega
        · exact ⟨_, _, splitChildren_leaf hclf⟩
      obtain ⟨hswf1, hswf2, hlen1', hlen2'⟩ := split_pieces_SWF h1 hrchild hfull hscc
      obtain ⟨medk, medv, hmedk, hmedv, hsplit⟩ :=
        @split_child_spec K V (BTreeNode.mk [] [] [r] false t) r 0 t cc nc
          (by simp) h1 rfl (by omega) (by omega) hscc (by simp) (by simp)
      simp only [keys_mk, values_mk, children_mk, isLeaf_mk, minDegree_mk,
        List.take_nil, List.drop_nil, List.nil_append, List.take_zero] at hsplit
      have hg'SWF : SWF t true (BTreeNode.mk [medk] [medv]
          ([BTreeNode.mk (r.keys.take (t - 1)) (r.values.take (t - 1)) cc r.isLeaf
              r.minDegree,
            BTreeNode.mk (r.keys.drop t) (r.values.drop t) nc r.isLeaf t])
          false t) := by
        refine SWF_intro rfl rfl ?_ ?_ ?_ ?_ ?_
        · simp
          omega
        · intro h
          cases h
        · intro h
          cases h
        · intro
          simp
        · simp only [SWFlist]
          exact ⟨hswf1, hswf2, trivial⟩
      obtain ⟨g'', hg'', hg''SWF, hperm, hge, hle, -, hudt, -⟩ :=
        insert_non_full_SWF h1 k v _ true hg'SWF (by simp; omega)
      refine ⟨⟨some g'', t⟩, ?_, ?_, ?_, ?_, ?_⟩
      · rw [BTreeMap.insert]
        simp only [Option.getD_some]
        rw [if_pos (by simpa using hfull)]
        have hsplit' : (BTreeNode.mk ([] : List K) ([] : List V) [r] false t).split_child 0 =
            some (BTreeNode.mk [medk] [medv]
              ([BTreeNode.mk (r.keys.take (t - 1)) (r.values.take (t - 1)) cc
                  r.isLeaf r.minDegree,
                BTreeNode.mk (r.keys.drop t) (r.values.drop t) nc r.isLeaf t])
              false t) := by
          rw [hsplit]
          rfl
        simp only [bind, hsplit', Option.some_bind, hg'', Option.pure_def]
      · refine ⟨rfl, hg''SWF, ?_⟩
        simp only [keys_mk, List.length_cons, List.length_nil] at hge
        omega
      · simp only [contents]
        refine hperm.trans (List.Perm.cons _ ?_)
        have hpieces := split_piece_inorder2 r.minDegree t h1 hscc
          hmedk hmedv hrvals (SWF_leaf_children hrSWF) (SWF_children_len hrSWF)
        have hval : inorder (BTreeNode.mk [medk] [medv]
            ([BTreeNode.mk (r.keys.take (t - 1)) (r.values.take (t - 1)) cc
                r.isLeaf r.minDegree,
              BTreeNode.mk (r.keys.drop t) (r.values.drop t) nc r.isLeaf t])
            false t) = inorder r := by
          rw [inorder]
          simp only [List.zip_cons_cons, List.zip_nil_left]
          rw [glue, glue, glue]
          simpa using hpieces
        rw [hval]
      · intro r0 r'' d hr0 hr'' hud
        obtain rfl : r = r0 := by simpa using hr0
        obtain rfl : g'' = r'' := by simpa using hr''
        rw [if_pos hfull]
        apply hudt
        rw [UD]
        simp only [Bool.false_eq_true, if_false]
        have hd1 := UD_pos hud
        refine ⟨by omega, ?_⟩
        rw [UDlist, UDlist]
        obtain ⟨hsub1, hsub2⟩ := splitChildren_sublist hscc
        have h2' : d + 1 - 1 = d := by omega
        rw [h2']
        exact ⟨UD_piece hud hsub1, UD_piece hud hsub2, trivial⟩
      · intro hnone
        exact absurd hnone (by simp)
    · -- root not full: descend directly
      have hkle := SWF_keys_le hrSWF
      obtain ⟨r', hr', hr'SWF, hperm, hge, hle, -, hudt, -⟩ :=
        insert_non_full_SWF h1 k v r true hrSWF (by omega)
      refine ⟨⟨some r', t⟩, ?_, ?_, ?_, ?_, ?_⟩
      · rw [BTreeMap.insert]
        simp only [Option.getD_some]
        rw [if_neg (by simpa using hfull)]
        simp only [bind, hr', Option.some_bind, Option.pure_def]
      · exact ⟨rfl, hr'SWF, by omega⟩
      · simpa [contents] using hperm
      · intro r0 r'' d hr0 hr'' hud
        obtain rfl : r = r0 := by simpa using hr0
        obtain rfl : r' = r'' := by simpa using hr''
        rw [if_neg hfull]
        exact hudt d hud
      · intro hnone
        exact absurd hnone (by simp)

theorem MapInv_new {t : Nat} : MapInv t (BTreeMap.new t : BTreeMap K V) :=
  ⟨rfl, trivial⟩

/-- Folding any insertion sequence over a structurally well-formed map
succeeds, preserves the invariant and the existence of a uniform leaf
depth, and accumulates exactly the inserted pairs. -/
theorem insertList_SWF [LinearOrder K] {t : Nat} (h2 : 2 ≤ t) :
    ∀ (ps : List (K × V)) (m : BTreeMap K V), MapInv t m →
      (∀ r, m.root = some r → ∃ d, UD d r) →
      ∃ m', insertList m ps = some m' ∧ MapInv t m' ∧
        (∀ r, m'.root = some r → ∃ d, UD d r) ∧
        (contents m').Perm (ps ++ contents m) := by
  intro ps
  induction ps with
  | nil =>
    intro m hm hud
    exact ⟨m, rfl, hm, hud, by simp⟩
  | cons p qs ih =>
    intro m hm hud
    obtain ⟨m1, hm1, hminv1, hperm1, hudstep, hudnone⟩ := insert_SWF h2 hm p.1 p.2
    have hperm1' : (contents m1).Perm (p :: contents m) := by
      simpa using hperm1
    have hud1 : ∀ r, m1.root = some r → ∃ d, UD d r := by
      intro r hr
      cases hroot : m.root with
      | none => exact ⟨1, hudnone hroot r hr⟩
      | some r0 =>
        obtain ⟨d, hd⟩ := hud r0 hroot
        exact ⟨_, hudstep r0 r d hroot hr hd⟩
    obtain ⟨m', hm', hminv', hud', hperm'⟩ := ih m1 hminv1 hud1
    refine ⟨m', ?_, hminv', hud', ?_⟩
    · rw [insertList, hm1]
      simpa using hm'
    · refine hperm'.trans ?_
      have hstep : (qs ++ contents m1).Perm (qs ++ (p :: contents m)) :=
        List.Perm.append_left qs hperm1'
      have hmid : (qs ++ (p :: contents m)).Perm (p :: (qs ++ contents m)) :=
        List.perm_middle
      simpa using hstep.trans hmid

/-- `search_in_node` on a structurally well-formed node never panics: the
`values[pos]` access is always in range. -/
theorem search_in_node_SWF [LinearOrder K] {t : Nat} (q : K) :
    ∀ n : BTreeNode K V, ∀ rt : Bool, SWF t rt n →
      ∃ res, search_in_node n q = some res := by
  apply BTreeNode.heightInduction
  intro n ih rt h
  cases n with
  | mk ks vs cs lf md =>
  obtain ⟨hmd, hvs, -, -, hlfT, hlfF, hswl⟩ := SWF_elim h
  rw [search_in_node.eq_def]
  simp only [keys_mk, values_mk, children_mk, isLeaf_mk]
  by_cases hhit : ks.get? (findPos ks q) = some q
  · rw [if_pos hhit]
    have hlt : findPos ks q < ks.length := (List.get?_eq_some.mp hhit).1
    obtain ⟨v0, hv0⟩ : ∃ v0, vs.get? (findPos ks q) = some v0 :=
      ⟨_, List.get?_eq_get (by omega)⟩
    rw [hv0]
    exact ⟨some v0, rfl⟩
  · rw [if_neg hhit]
    cases lf with
    | true => exact ⟨none, rfl⟩
    | false =>
      simp only [Bool.false_eq_true, if_false]
      split
      · exact ⟨none, rfl⟩
      · rename_i c hc
        exact ih c (height_lt_of_mem (by simpa using List.get?_mem hc)) false
          (SWFlist_mem hswl (List.get?_mem hc))

theorem AllNodesList_intro {P : BTreeNode K V → Prop} {cs : List (BTreeNode K V)}
    (h : ∀ c ∈ cs, AllNodes P c) : AllNodesList P cs := by
  induction cs with
  | nil => trivial
  | cons c cs ih =>
    rw [AllNodesList]
    exact ⟨h c (by simp), ih (fun c' hc' => h c' (by simp [hc']))⟩

/-- Structural well-formedness gives the per-node bookkeeping invariants at
every reachable node. -/
theorem SWF_AllNodes {t : Nat} :
    ∀ n : BTreeNode K V, ∀ rt : Bool, SWF t rt n →
      AllNodes (fun x => x.values.length = x.keys.length ∧
        (x.isLeaf = false → x.children.length = x.keys.length + 1) ∧
        (x.isLeaf = true → x.children = []) ∧
        x.keys.length ≤ 2 * t - 1) n := by
  apply BTreeNode.heightInduction
  intro n ih rt h
  cases n with
  | mk ks vs cs lf md =>
  obtain ⟨hmd, hvs, hkle, -, hlfT, hlfF, hswl⟩ := SWF_elim h
  rw [AllNodes]
  constructor
  · exact ⟨by simpa using hvs, by simpa using hlfF, by simpa using hlfT,
      by simpa using hkle⟩
  · exact AllNodesList_intro fun c hc =>
      ih c (height_lt_of_mem (by simpa using hc)) false (SWFlist_mem hswl hc)

/-- Every non-root (descendant) node of a structurally well-formed tree
holds at least `t - 1` keys. -/
theorem SWF_AllNodes_min {t : Nat} :
    ∀ n : BTreeNode K V, SWF t false n →
      AllNodes (fun x => t - 1 ≤ x.keys.length) n := by
  apply BTreeNode.heightInduction
  intro n ih h
  cases n with
  | mk ks vs cs lf md =>
  obtain ⟨-, -, -, hmin, -, -, hswl⟩ := SWF_elim h
  rw [AllNodes]
  constructor
  · simpa using hmin rfl
  · exact AllNodesList_intro fun c hc =>
      ih c (height_lt_of_mem (by simpa using hc)) (SWFlist_mem hswl hc)

end StructuralInsert

section OrderedSupport

variable {K V : Type}

/-- The lower bound of the child slot after the keys `ks`: the last key if
there is one, else the inherited lower bound `lo`. -/
def olast (lo : Option K) : List K → Option K
  | [] => lo
  | k :: ks => olast (some k) ks

theorem olast_eq_getLast? {lo : Option K} {l : List K} (h : l ≠ []) :
    olast lo l = l.getLast? := by
  induction l generalizing lo with
  | nil => simp at h
  | cons k ks ih =>
    cases ks with
    | nil => rfl
    | cons k' ks' =>
      rw [olast, ih (by simp)]
      simp [List.getLast?]

theorem childBounds_get?_lt [LinearOrder K] {lo hi : Option K} {ks : List K}
    {j : Nat} {kj : K} (hget : ks.get? j = some kj) :
    (childBounds lo ks hi).get? j = some (olast lo (ks.take j), some kj) := by
  induction ks generalizing lo j with
  | nil => simp at hget
  | cons k ks' ih =>
    cases j with
    | zero =>
      obtain rfl : k = kj := by simpa using hget
      rfl
    | succ j' =>
      rw [childBounds]
      simp only [List.get?, List.take_succ_cons]
      exact ih (by simpa using hget)

theorem childBounds_get?_last [LinearOrder K] {lo hi : Option K} {ks : List K} :
    (childBounds lo ks hi).get? ks.length = some (olast lo ks, hi) := by
  induction ks generalizing lo with
  | nil => rfl
  | cons k ks' ih =>
    rw [childBounds]
    simpa using ih

theorem mem_le_getLast_of_sorted [LinearOrder K] {l : List K} {x y : K}
    (hs : List.Pairwise (· < ·) l) (hx : x ∈ l) (hy : l.getLast? = some y) :
    x ≤ y := by
  induction l with
  | nil => simp at hx
  | cons a l' ih =>
    rcases List.mem_cons.mp hx with rfl | hx'
    · cases l' with
      | nil =>
        obtain rfl : x = y := by simpa using hy
        exact le_refl x
      | cons b l'' =>
        have hby : y ∈ b :: l'' :=
          List.mem_of_getLast?_eq_some (by simpa [List.getLast?] using hy)
        exact le_of_lt ((List.pairwise_cons.mp hs).1 y hby)
    · cases l' with
      | nil => simp at hx'
      | cons b l'' =>
        exact ih (List.pairwise_cons.mp hs).2 hx' (by simpa [List.getLast?] using hy)

theorem sorted_get?_inj [LinearOrder K] {l : List K} {i j : Nat} {q : K}
    (hs : List.Pairwise (· < ·) l)
    (hi : l.get? i = some q) (hj : l.get? j = some q) : i = j := by
  by_contra hne
  have hil : i < l.length := (List.get?_eq_some.mp hi).1
  have hjl : j < l.length := (List.get?_eq_some.mp hj).1
  have hgi : l.get ⟨i, hil⟩ = q := by
    have := List.get?_eq_get hil
    rw [this] at hi
    exact Option.some.injEq _ _ ▸ (by simpa using hi)
  have hgj : l.get ⟨j, hjl⟩ = q := by
    have := List.get?_eq_get hjl
    rw [this] at hj
    exact Option.some.injEq _ _ ▸ (by simpa using hj)
  rcases Nat.lt_or_ge i j with hlt | hge
  · have := List.pairwise_iff_get.mp hs ⟨i, hil⟩ ⟨j, hjl⟩ hlt
    rw [hgi, hgj] at this
    exact lt_irrefl q this
  · have hlt : j < i := by omega
    have := List.pairwise_iff_get.mp hs ⟨j, hjl⟩ ⟨i, hil⟩ hlt
    rw [hgi, hgj] at this
    exact lt_irrefl q this

theorem findPos_eq_of_bounds [LinearOrder K] {ks : List K} {j : Nat} {q : K}
    (hs : List.Pairwise (· < ·) ks) (hj : j ≤ ks.length)
    (hlow : ∀ y, (ks.take j).getLast? = some y → y < q)
    (hhigh : ∀ y, (ks.drop j).head? = some y → q ≤ y) :
    findPos ks q = j := by
  have hdec : ks = ks.take j ++ ks.drop j := (List.take_append_drop j ks).symm
  have hlen : (ks.take j).length = j := by
    simp [List.length_take]
    omega
  have hstake : List.Pairwise (· < ·) (ks.take j) :=
    hs.sublist (List.take_sublist _ _)
  have hA : ∀ x ∈ ks.take j, x < q := by
    intro x hx
    have hne : ks.take j ≠ [] := List.ne_nil_of_mem hx
    obtain ⟨y, hy⟩ : ∃ y, (ks.take j).getLast? = some y := by
      cases hgl : (ks.take j).getLast? with
      | none => exact absurd (List.getLast?_eq_none_iff.mp hgl) hne
      | some y => exact ⟨y, rfl⟩
    exact lt_of_le_of_lt (mem_le_getLast_of_sorted hstake hx hy) (hlow y hy)
  calc findPos ks q = findPos (ks.take j ++ ks.drop j) q := by rw [← hdec]
  _ = (ks.take j).length := findPos_append hA hhigh
  _ = j := hlen

theorem get?_zip_eq_some {l1 : List α} {l2 : List β} {i : Nat} {a : α} {b : β} :
    (l1.zip l2).get? i = some (a, b) ↔ l1.get? i = some a ∧ l2.get? i = some b := by
  induction l1 generalizing l2 i with
  | nil => simp
  | cons x xs ih =>
    cases l2 with
    | nil => simp
    | cons y ys =>
      cases i with
      | zero => simp [eq_comm, and_comm, Prod.ext_iff]
      | succ j => simpa using ih

theorem mem_zip_of_mem_left {l1 : List K} {l2 : List V} {k : K}
    (hlen : l2.length = l1.length) (h : k ∈ l1) : ∃ v, (k, v) ∈ l1.zip l2 := by
  obtain ⟨i, hi⟩ := List.mem_iff_get?.mp h
  have hil : i < l1.length := (List.get?_eq_some.mp hi).1
  obtain ⟨v, hv⟩ : ∃ v, l2.get? i = some v := ⟨_, List.get?_eq_get (by omega)⟩
  exact ⟨v, List.get?_mem (get?_zip_eq_some.mpr ⟨hi, hv⟩)⟩

theorem node_keys_mem_inorder {ks : List K} {vs : List V}
    {cs : List (BTreeNode K V)} {k : K}
    (hlen : vs.length = ks.length) (h : k ∈ ks) :
    k ∈ (glue cs (ks.zip vs)).map Prod.fst := by
  obtain ⟨v, hv⟩ := mem_zip_of_mem_left hlen h
  exact List.mem_map.mpr ⟨(k, v), mem_glue.mpr (Or.inr hv), rfl⟩

theorem WF_intro [LinearOrder K] {t : Nat} {rt : Bool} {lo hi : Option K}
    {ks : List K} {vs : List V} {cs lf md}
    (h1 : md = t) (h2 : vs.length = ks.length) (h3 : ks.length ≤ 2 * t - 1)
    (h4 : rt = false → t - 1 ≤ ks.length)
    (h5 : List.Pairwise (· < ·) ks)
    (h6 : ∀ k ∈ ks, inBounds lo hi k)
    (h7 : lf = true → cs = [])
    (h8 : lf = false → WFlist t (childBounds lo ks hi) cs) :
    WF t rt lo hi (BTreeNode.mk ks vs cs lf md) := by
  rw [WF]
  cases lf
  · simp_all
  · simp_all

theorem WF_elim [LinearOrder K] {t : Nat} {rt : Bool} {lo hi : Option K}
    {ks : List K} {vs : List V} {cs lf md}
    (h : WF t rt lo hi (BTreeNode.mk ks vs cs lf md)) :
    md = t ∧ vs.length = ks.length ∧ ks.length ≤ 2 * t - 1 ∧
    (rt = false → t - 1 ≤ ks.length) ∧
    List.Pairwise (· < ·) ks ∧
    (∀ k ∈ ks, inBounds lo hi k) ∧
    (lf = true → cs = []) ∧
    (lf = false → WFlist t (childBounds lo ks hi) cs) := by
  rw [WF] at h
  cases lf
  · simp_all
  · simp_all

theorem WFlist_mem_exists [LinearOrder K] {t : Nat}
    {bs : List (Option K × Option K)} {cs : List (BTreeNode K V)}
    (h : WFlist t bs cs) {c : BTreeNode K V} (hc : c ∈ cs) :
    ∃ b ∈ bs, WF t false b.1 b.2 c := by
  induction bs generalizing cs with
  | nil =>
    cases cs with
    | nil => simp at hc
    | cons c₀ cs' => rw [WFlist] at h; exact h.elim
  | cons b bs ih =>
    cases cs with
    | nil => simp at hc
    | cons c₀ cs' =>
      rw [WFlist] at h
      rcases List.mem_cons.mp hc with rfl | hc'
      · exact ⟨b, by simp, h.1⟩
      · obtain ⟨b', hb', hwf⟩ := ih h.2 hc'
        exact ⟨b', by simp [hb'], hwf⟩

theorem SWFlist_intro {t : Nat} {cs : List (BTreeNode K V)}
    (h : ∀ c ∈ cs, SWF t false c) : SWFlist t cs := by
  induction cs with
  | nil => trivial
  | cons c cs' ih =>
    rw [SWFlist]
    exact ⟨h c (by simp), ih (fun c' hc' => h c' (by simp [hc']))⟩

theorem WF_imp_SWF [LinearOrder K] {t : Nat} :
    ∀ n : BTreeNode K V, ∀ (rt : Bool) (lo hi : Option K),
      WF t rt lo hi n → SWF t rt n := by
  apply BTreeNode.heightInduction
  intro n ih rt lo hi h
  cases n with
  | mk ks vs cs lf md =>
  obtain ⟨hmd, hvs, hkle, hmin, hsort, hbnd, hlfT, hlfF⟩ := WF_elim h
  apply SWF_intro hmd hvs hkle hmin hlfT
  · intro hlf
    have := WFlist_length (hlfF hlf)
    rw [childBounds_length] at this
    omega
  · cases hlf : lf
    · apply SWFlist_intro
      intro c hc
      obtain ⟨b, -, hwf⟩ := WFlist_mem_exists (hlfF hlf) hc
      exact ih c (height_lt_of_mem (by simpa using hc)) false b.1 b.2 hwf
    · rw [hlfT hlf]
      trivial

/-- List-level core of the flattening lemma: interleaving ordered children
with sorted separator keys yields a sorted flattening within bounds. -/
theorem WF_flatten_glue [LinearOrder K] {t : Nat} {hi : Option K} :
    ∀ (ks : List K) (lo : Option K) (cs : List (BTreeNode K V)) (vs : List V),
      (∀ c ∈ cs, ∀ (lo' hi' : Option K), WF t false lo' hi' c →
        List.Pairwise (· < ·) ((inorder c).map Prod.fst) ∧
        (∀ p ∈ inorder c, inBounds lo' hi' p.1)) →
      WFlist t (childBounds lo ks hi) cs →
      vs.length = ks.length →
      List.Pairwise (· < ·) ks →
      (∀ k ∈ ks, inBounds lo hi k) →
      List.Pairwise (· < ·) ((glue cs (ks.zip vs)).map Prod.fst) ∧
      (∀ p ∈ glue cs (ks.zip vs), inBounds lo hi p.1) := by
  intro ks
  induction ks with
  | nil =>
    intro lo cs vs hchild hw hlen hsort hbnd
    obtain rfl : vs = [] := List.length_eq_zero.mp (by simpa using hlen)
    rw [childBounds] at hw
    cases cs with
    | nil => rw [WFlist] at hw; exact hw.elim
    | cons c₀ cs' =>
      rw [WFlist] at hw
      obtain ⟨hwf0, hrest⟩ := hw
      obtain rfl : cs' = [] := by
        cases cs' with
        | nil => rfl
        | cons x xs => rw [WFlist] at hrest; exact hrest.elim
      have h0 := hchild c₀ (by simp) lo hi hwf0
      rw [List.zip_nil_left, glue, glue]
      simpa using h0
  | cons k0 ks' ih =>
    intro lo cs vs hchild hw hlen hsort hbnd
    cases vs with
    | nil => simp at hlen
    | cons v0 vs' =>
    rw [childBounds] at hw
    cases cs with
    | nil => rw [WFlist] at hw; exact hw.elim
    | cons c₀ cs' =>
    rw [WFlist] at hw
    obtain ⟨hwf0, hrest⟩ := hw
    have hk0 : inBounds lo hi k0 := hbnd k0 (by simp)
    have hsort' := (List.pairwise_cons.mp hsort).2
    have hlt0 := (List.pairwise_cons.mp hsort).1
    have hbnd' : ∀ k ∈ ks', inBounds (some k0) hi k := by
      intro k hk
      refine ⟨?_, (hbnd k (by simp [hk])).2⟩
      intro a ha
      obtain rfl : k0 = a := by simpa using ha
      exact hlt0 k hk
    obtain ⟨PB, BB⟩ := ih (some k0) cs' vs'
      (fun c hc => hchild c (by simp [hc])) hrest (by simpa using hlen) hsort' hbnd'
    obtain ⟨PA, BA⟩ := hchild c₀ (by simp) lo (some k0) hwf0
    rw [List.zip_cons_cons, glue]
    constructor
    · rw [List.map_append, List.map_cons]
      rw [List.pairwise_append]
      refine ⟨PA, ?_, ?_⟩
      · rw [List.pairwise_cons]
        refine ⟨?_, PB⟩
        intro b hb
        obtain ⟨p, hp, rfl⟩ := List.mem_map.mp hb
        have := (BB p hp).1
        exact this k0 rfl
      · intro a ha b hb
        obtain ⟨p, hp, rfl⟩ := List.mem_map.mp ha
        have halt : p.1 < k0 := (BA p hp).2 k0 rfl
        rcases List.mem_cons.mp hb with rfl | hb'
        · exact halt
        · obtain ⟨p', hp', rfl⟩ := List.mem_map.mp hb'
          exact lt_trans halt ((BB p' hp').1 k0 rfl)
    · intro p hp
      rcases List.mem_append.mp hp with hpA | hpB
      · refine ⟨(BA p hpA).1, ?_⟩
        intro b hb
        exact lt_trans ((BA p hpA).2 k0 rfl) (hk0.2 b hb)
      · rcases List.mem_cons.mp hpB with rfl | hpB'
        · exact hk0
        · refine ⟨?_, (BB p hpB').2⟩
          intro a ha
          exact lt_trans (hk0.1 a ha) ((BB p hpB').1 k0 rfl)

/-- The flattening of an ordered well-formed subtree has strictly
increasing keys, all inside the subtree's bounds. -/
theorem WF_flatten [LinearOrder K] {t : Nat} :
    ∀ n : BTreeNode K V, ∀ (rt : Bool) (lo hi : Option K), WF t rt lo hi n →
      List.Pairwise (· < ·) ((inorder n).map Prod.fst) ∧
      (∀ p ∈ inorder n, inBounds lo hi p.1) := by
  apply BTreeNode.heightInduction
  intro n ih rt lo hi h
  cases n with
  | mk ks vs cs lf md =>
  obtain ⟨hmd, hvs, hkle, hmin, hsort, hbnd, hlfT, hlfF⟩ := WF_elim h
  rw [inorder]
  cases hlf : lf
  · -- internal
    exact WF_flatten_glue ks lo cs vs
      (fun c hc lo' hi' hwf =>
        ih c (height_lt_of_mem (by simpa using hc)) false lo' hi' hwf)
      (hlfF hlf) hvs hsort hbnd
  · -- leaf
    obtain rfl : cs = [] := hlfT hlf
    rw [glue]
    constructor
    · rw [List.map_fst_zip ks vs (by omega)]
      exact hsort
    · intro p hp
      exact hbnd p.1 (List.mem_zip hp).1

/-- The upper bound of the child slot before the keys `ks`: the first key
if there is one, else the inherited upper bound `hi`. -/
def ohead (hi : Option K) : List K → Option K
  | [] => hi
  | k :: _ => some k

theorem olast_concat {lo : Option K} {A : List K} {m : K} :
    olast lo (A ++ [m]) = some m := by
  rw [olast_eq_getLast? (by simp)]
  simp

theorem set_append_cons {A B : List α} {c c' : α} :
    (A ++ c :: B).set A.length c' = A ++ c' :: B := by
  induction A with
  | nil => rfl
  | cons a A ih => simpa using ih

theorem set_append_cons' {A B : List α} {c c' : α} {i : Nat} (h : A.length = i) :
    (A ++ c :: B).set i c' = A ++ c' :: B := by
  subst h
  exact set_append_cons

theorem mem_ge_head_of_sorted [LinearOrder K] {l : List K} {x y : K}
    (hs : List.Pairwise (· < ·) l) (hx : x ∈ l) (hy : l.head? = some y) :
    y ≤ x := by
  cases l with
  | nil => simp at hx
  | cons a l' =>
    obtain rfl : a = y := by simpa using hy
    rcases List.mem_cons.mp hx with rfl | hx'
    · exact le_refl x
    · exact le_of_lt ((List.pairwise_cons.mp hs).1 x hx')

theorem pairwise_insert_middle [LinearOrder K] {A B : List K} {m : K}
    (h : List.Pairwise (· < ·) (A ++ B))
    (hA : ∀ x ∈ A, x < m) (hB : ∀ y ∈ B, m < y) :
    List.Pairwise (· < ·) (A ++ m :: B) := by
  rw [List.pairwise_append] at h
  rw [List.pairwise_append]
  refine ⟨h.1, ?_, ?_⟩
  · rw [List.pairwise_cons]
    exact ⟨hB, h.2.1⟩
  · intro a ha b hb
    rcases List.mem_cons.mp hb with rfl | hb'
    · exact hA a ha
    · exact h.2.2 a ha b hb'

theorem sorted_take_lt [LinearOrder K] {l : List K} {i : Nat} {m x : K}
    (hs : List.Pairwise (· < ·) l) (hm : l.get? i = some m)
    (hx : x ∈ l.take i) : x < m := by
  obtain ⟨j, hj⟩ := List.mem_iff_get?.mp hx
  have hjlt : j < (l.take i).length := (List.get?_eq_some.mp hj).1
  have hji : j < i := by
    simp [List.length_take] at hjlt
    omega
  have hj' : l.get? j = some x := by
    rw [← List.get?_take hji]
    exact hj
  have hjl : j < l.length := (List.get?_eq_some.mp hj').1
  have hil : i < l.length := (List.get?_eq_some.mp hm).1
  have := List.pairwise_iff_get.mp hs ⟨j, hjl⟩ ⟨i, hil⟩ hji
  rwa [show l.get ⟨j, hjl⟩ = x from by
      have := List.get?_eq_get hjl
      rw [this] at hj'
      simpa using hj',
    show l.get ⟨i, hil⟩ = m from by
      have := List.get?_eq_get hil
      rw [this] at hm
      simpa using hm] at this

theorem sorted_drop_gt [LinearOrder K] {l : List K} {i : Nat} {m x : K}
    (hs : List.Pairwise (· < ·) l) (hm : l.get? i = some m)
    (hx : x ∈ l.drop (i + 1)) : m < x := by
  have hsd : List.Pairwise (· < ·) (l.drop i) := hs.sublist (List.drop_sublist _ _)
  have hdec : l.drop i = m :: l.drop (i + 1) := drop_eq_cons_of_get? hm
  rw [hdec] at hsd
  exact (List.pairwise_cons.mp hsd).1 x hx

/-- The two halves of a split full child are ordered well-formed on the
two sides of the promoted median, which lies strictly inside the child's
bounds. -/
theorem split_pieces_WF [LinearOrder K] {t : Nat} {c : BTreeNode K V}
    {cc nc : List (BTreeNode K V)} {blo bhi : Option K} {medk : K}
    (h1 : 1 ≤ t) (hc : WF t false blo bhi c) (hfull : c.keys.length = 2 * t - 1)
    (hscc : splitChildren c t = some (cc, nc))
    (hmedk : c.keys.get? (t - 1) = some medk) :
    WF t false blo (some medk) (BTreeNode.mk (c.keys.take (t - 1))
      (c.values.take (t - 1)) cc c.isLeaf c.minDegree) ∧
    WF t false (some medk) bhi (BTreeNode.mk (c.keys.drop t)
      (c.values.drop t) nc c.isLeaf t) ∧
    inBounds blo bhi medk := by
  cases c with
  | mk ks vs ccs lf md =>
    obtain ⟨hmd, hvs, hkle, -, hsort, hbnd, hlfT, hlfF⟩ := WF_elim hc
    simp only [keys_mk, values_mk, children_mk, isLeaf_mk, minDegree_mk] at *
    have hklen : ks.length = 2 * t - 1 := hfull
    have ht1 : t - 1 + 1 = t := by omega
    have hkdec : ks = ks.take (t - 1) ++ medk :: ks.drop t := by
      conv_lhs => rw [← List.take_append_drop (t - 1) ks]
      rw [drop_eq_cons_of_get? hmedk, ht1]
    have hmedk_bnd : inBounds blo bhi medk := hbnd medk (List.get?_mem hmedk)
    have htsort : List.Pairwise (· < ·) (ks.take (t - 1)) :=
      hsort.sublist (List.take_sublist _ _)
    have hdsort : List.Pairwise (· < ·) (ks.drop t) :=
      hsort.sublist (List.drop_sublist _ _)
    have htbnd : ∀ x ∈ ks.take (t - 1), inBounds blo (some medk) x := by
      intro x hx
      refine ⟨(hbnd x (List.mem_of_mem_take hx)).1, ?_⟩
      intro b hb
      obtain rfl : medk = b := by simpa using hb
      exact sorted_take_lt hsort hmedk hx
    have hdbnd : ∀ x ∈ ks.drop t, inBounds (some medk) bhi x := by
      intro x hx
      refine ⟨?_, (hbnd x (List.mem_of_mem_drop hx)).2⟩
      intro a ha
      obtain rfl : medk = a := by simpa using ha
      exact sorted_drop_gt hsort hmedk (by rwa [ht1])
    refine ⟨?_, ?_, hmedk_bnd⟩
    · apply WF_intro hmd (by simp [hvs]) (by simp; omega) (by intro; simp; omega)
        htsort htbnd
      · intro hlf
        subst hlf
        obtain rfl : ccs = [] := hlfT rfl
        obtain ⟨rfl, -⟩ : cc = [] ∧ nc = [] := by
          rw [@splitChildren_leaf K V (BTreeNode.mk ks vs [] true md) t
            (by simp)] at hscc
          simpa [eq_comm] using hscc
        rfl
      · intro hlf
        subst hlf
        have hw := hlfF rfl
        have hccs : ccs.length = ks.length + 1 := by
          have := WFlist_length hw
          rw [childBounds_length] at this
          omega
        obtain ⟨rfl, -⟩ : cc = ccs.take t ∧ nc = ccs.drop t := by
          rw [@splitChildren_internal K V (BTreeNode.mk ks vs ccs false md) t
            (by simp) (by simp; omega)] at hscc
          simpa [eq_comm] using hscc
        rw [hkdec, childBounds_append] at hw
        rw [show ccs = ccs.take t ++ ccs.drop t from (List.take_append_drop t ccs).symm]
          at hw
        have := (WFlist_append (by
          rw [childBounds_length]
          simp [List.length_take]
          omega)).mp hw
        exact this.1
    · apply WF_intro rfl (by simp [hvs]) (by simp; omega) (by intro; simp; omega)
        hdsort hdbnd
      · intro hlf
        subst hlf
        obtain rfl : ccs = [] := hlfT rfl
        obtain ⟨-, rfl⟩ : cc = [] ∧ nc = [] := by
          rw [@splitChildren_leaf K V (BTreeNode.mk ks vs [] true md) t
            (by simp)] at hscc
          simpa [eq_comm] using hscc
        rfl
      · intro hlf
        subst hlf
        have hw := hlfF rfl
        have hccs : ccs.length = ks.length + 1 := by
          have := WFlist_length hw
          rw [childBounds_length] at this
          omega
        obtain ⟨-, rfl⟩ : cc = ccs.take t ∧ nc = ccs.drop t := by
          rw [@splitChildren_internal K V (BTreeNode.mk ks vs ccs false md) t
            (by simp) (by simp; omega)] at hscc
          simpa [eq_comm] using hscc
        rw [hkdec, childBounds_append] at hw
        rw [show ccs = ccs.take t ++ ccs.drop t from (List.take_append_drop t ccs).symm]
          at hw
        have := (WFlist_append (by
          rw [childBounds_length]
          simp [List.length_take]
          omega)).mp hw
        exact this.2

/-- Surgery on an ordered child list: extract the well-formedness of the
child at the boundary between `ksA` and `ksB`, replace it by another node
well-formed over the same bounds, or replace it by two nodes separated by
a freshly inserted median key. -/
theorem WFlist_surgery [LinearOrder K] {t : Nat} {hi : Option K} :
    ∀ (ksA : List K) (lo : Option K) (csA : List (BTreeNode K V))
      (ksB : List K) (csB : List (BTreeNode K V)) (c : BTreeNode K V),
      csA.length = ksA.length →
      WFlist t (childBounds lo (ksA ++ ksB) hi) (csA ++ c :: csB) →
      WF t false (olast lo ksA) (ohead hi ksB) c ∧
      (∀ c', WF t false (olast lo ksA) (ohead hi ksB) c' →
        WFlist t (childBounds lo (ksA ++ ksB) hi) (csA ++ c' :: csB)) ∧
      (∀ (medk : K) (child' newChild : BTreeNode K V),
        WF t false (olast lo ksA) (some medk) child' →
        WF t false (some medk) (ohead hi ksB) newChild →
        WFlist t (childBounds lo (ksA ++ medk :: ksB) hi)
          (csA ++ child' :: newChild :: csB)) := by
  intro ksA
  induction ksA with
  | nil =>
    intro lo csA ksB csB c hlen hw
    obtain rfl : csA = [] := List.length_eq_zero.mp (by simpa using hlen)
    simp only [List.nil_append] at hw ⊢
    cases ksB with
    | nil =>
      rw [childBounds, WFlist] at hw
      obtain ⟨hc, hrest⟩ := hw
      refine ⟨hc, ?_, ?_⟩
      · intro c' hc'
        rw [childBounds, WFlist]
        exact ⟨hc', hrest⟩
      · intro medk child' newChild h1 h2
        rw [childBounds, childBounds, WFlist, WFlist]
        exact ⟨h1, h2, hrest⟩
    | cons k ks =>
      rw [childBounds, WFlist] at hw
      obtain ⟨hc, hrest⟩ := hw
      refine ⟨hc, ?_, ?_⟩
      · intro c' hc'
        rw [childBounds, WFlist]
        exact ⟨hc', hrest⟩
      · intro medk child' newChild h1 h2
        rw [childBounds, childBounds, WFlist, WFlist]
        exact ⟨h1, h2, hrest⟩
  | cons a ksA' ih =>
    intro lo csA ksB csB c hlen hw
    cases csA with
    | nil => simp at hlen
    | cons d csA' =>
      simp only [List.cons_append] at hw ⊢
      rw [childBounds, WFlist] at hw
      obtain ⟨hd, hrest⟩ := hw
      obtain ⟨hc, hrep, hins⟩ := ih (some a) csA' ksB csB c (by simpa using hlen) hrest
      have holast : olast lo (a :: ksA') = olast (some a) ksA' := rfl
      rw [holast]
      refine ⟨hc, ?_, ?_⟩
      · intro c' hc'
        rw [childBounds, WFlist]
        exact ⟨hd, hrep c' hc'⟩
      · intro medk child' newChild h1 h2
        rw [childBounds, WFlist]
        exact ⟨hd, hins medk child' newChild h1 h2⟩

theorem keys_mem_inorder {n : BTreeNode K V} {k : K}
    (hlen : n.values.length = n.keys.length) (h : k ∈ n.keys) :
    k ∈ (inorder n).map Prod.fst := by
  cases n with
  | mk ks vs cs lf md =>
    rw [inorder]
    exact node_keys_mem_inorder (by simpa using hlen) (by simpa using h)

theorem inorder_child_subset {c : BTreeNode K V} {cs : List (BTreeNode K V)}
    {ps : List (K × V)} (hc : c ∈ cs) {p : K × V} (hp : p ∈ inorder c) :
    p ∈ glue cs ps :=
  mem_glue.mpr (Or.inl ⟨c, hc, hp⟩)

/-- `insert_non_full` with a fresh in-bounds key preserves ordered
well-formedness. -/
theorem insert_non_full_WF [LinearOrder K] {t : Nat} (h1 : 1 ≤ t) (k : K) (v : V) :
    ∀ n : BTreeNode K V, ∀ (rt : Bool) (lo hi : Option K),
      WF t rt lo hi n → n.keys.length < 2 * t - 1 →
      inBounds lo hi k →
      k ∉ (inorder n).map Prod.fst →
      ∀ n', n.insert_non_full k v = some n' → WF t rt lo hi n' := by
  apply BTreeNode.heightInduction
  intro n ih rt lo hi h hnf hkb hfresh n' heqn'
  cases n with
  | mk ks vs cs lf md =>
  obtain ⟨hmd, hvs, hkle, hmin, hsort, hbnd, hlfT, hlfF⟩ := WF_elim h
  subst md
  simp only [keys_mk] at hnf
  rw [inorder] at hfresh
  have hposle : findPos ks k ≤ ks.length := findPos_le_length ks k
  have hknotks : k ∉ ks := fun hk =>
    hfresh (node_keys_mem_inorder hvs hk)
  have hdropgt : ∀ y ∈ ks.drop (findPos ks k), k < y := by
    intro y hy
    have hne : ks.drop (findPos ks k) ≠ [] := List.ne_nil_of_mem hy
    obtain ⟨y0, hy0⟩ : ∃ y0, (ks.drop (findPos ks k)).head? = some y0 := by
      cases hh : (ks.drop (findPos ks k)).head? with
      | none => exact absurd (List.head?_eq_none_iff.mp hh) hne
      | some y0 => exact ⟨y0, rfl⟩
    have hy0get : ks.get? (findPos ks k) = some y0 := by
      rw [List.get?_eq_getElem?]
      simpa using hy0
    have hky0 : k < y0 := by
      rcases lt_or_eq_of_le (findPos_get? hy0get) with hlt | rfl
      · exact hlt
      · exact absurd (List.get?_mem hy0get) hknotks
    have hsd : List.Pairwise (· < ·) (ks.drop (findPos ks k)) :=
      hsort.sublist (List.drop_sublist _ _)
    exact lt_of_lt_of_le hky0 (mem_ge_head_of_sorted hsd hy hy0)
  cases lf with
  | true =>
    obtain rfl : cs = [] := hlfT rfl
    have hvk : vinsert ks (findPos ks k) k =
        some (ks.take (findPos ks k) ++ k :: ks.drop (findPos ks k)) :=
      vinsert_eq_some.mpr ⟨hposle, rfl⟩
    have hvv : vinsert vs (findPos ks k) v =
        some (vs.take (findPos ks k) ++ v :: vs.drop (findPos ks k)) :=
      vinsert_eq_some.mpr ⟨by omega, rfl⟩
    have heq := INFleafEq (n := BTreeNode.mk ks vs [] true t) rfl hvk hvv
    rw [heq] at heqn'
    obtain rfl : BTreeNode.mk (ks.take (findPos ks k) ++ k :: ks.drop (findPos ks k))
        (vs.take (findPos ks k) ++ v :: vs.drop (findPos ks k)) [] true t = n' := by
      simpa using heqn'
    apply WF_intro rfl (by simp [List.length_take, List.length_drop]; omega)
      (by simp [List.length_take, List.length_drop]; omega)
      (by intro hrt; have := hmin hrt; simp [List.length_take, List.length_drop]; omega)
    · apply pairwise_insert_middle _ findPos_take hdropgt
      rw [List.take_append_drop]
      exact hsort
    · intro x hx
      rcases List.mem_append.mp hx with hxA | hxB
      · exact hbnd x (List.mem_of_mem_take hxA)
      · rcases List.mem_cons.mp hxB with rfl | hxB'
        · exact hkb
        · exact hbnd x (List.mem_of_mem_drop hxB')
    · exact fun _ => rfl
    · intro hlf
      cases hlf
  | false =>
    have hw := hlfF rfl
    have hcs : cs.length = ks.length + 1 := by
      have := WFlist_length hw
      rw [childBounds_length] at this
      omega
    have hposc : findPos ks k < cs.length := by omega
    obtain ⟨c, hget⟩ : ∃ c, cs.get? (findPos ks k) = some c :=
      ⟨_, List.get?_eq_get hposc⟩
    have hcmem : c ∈ cs := List.get?_mem hget
    have htklen : (ks.take (findPos ks k)).length = findPos ks k := by
      simp [List.length_take]
      omega
    have htclen : (cs.take (findPos ks k)).length = findPos ks k := by
      simp [List.length_take]
      omega
    have hcsdec : cs = cs.take (findPos ks k) ++ c :: cs.drop (findPos ks k + 1) := by
      conv_lhs => rw [← List.take_append_drop (findPos ks k) cs]
      rw [drop_eq_cons_of_get? hget]
    have hw' : WFlist t
        (childBounds lo (ks.take (findPos ks k) ++ ks.drop (findPos ks k)) hi)
        (cs.take (findPos ks k) ++ c :: cs.drop (findPos ks k + 1)) := by
      rw [List.take_append_drop, ← hcsdec]
      exact hw
    obtain ⟨hcWF, hrep, hins⟩ := WFlist_surgery (ks.take (findPos ks k)) lo
      (cs.take (findPos ks k)) (ks.drop (findPos ks k))
      (cs.drop (findPos ks k + 1)) c (by rw [htklen, htclen]) hw'
    have hcdatas : c.values.length = c.keys.length ∧ c.keys.length ≤ 2 * t - 1 := by
      cases c with
      | mk a b e f g =>
        obtain ⟨-, h2', h3', -⟩ := WF_elim hcWF
        exact ⟨h2', h3'⟩
    have hkc : inBounds (olast lo (ks.take (findPos ks k)))
        (ohead hi (ks.drop (findPos ks k))) k := by
      constructor
      · intro a ha
        cases htk : ks.take (findPos ks k) with
        | nil =>
          rw [htk] at ha
          exact hkb.1 a (by simpa [olast] using ha)
        | cons x xs =>
          rw [olast_eq_getLast? (by rw [htk]; simp)] at ha
          exact findPos_take a (List.mem_of_getLast?_eq_some ha)
      · intro b hb
        cases htd : ks.drop (findPos ks k) with
        | nil =>
          rw [htd] at hb
          exact hkb.2 b (by simpa [ohead] using hb)
        | cons y ys =>
          obtain rfl : y = b := by
            rw [htd] at hb
            simpa [ohead] using hb
          exact hdropgt y (by rw [htd]; simp)
    have hfreshc : k ∉ (inorder c).map Prod.fst := by
      intro hk
      obtain ⟨p, hp, hpk⟩ := List.mem_map.mp hk
      exact hfresh (List.mem_map.mpr ⟨p, inorder_child_subset hcmem hp, hpk⟩)
    by_cases hfull : c.keys.length = 2 * t - 1
    · -- full child: split, then descend into the proper half
      have hcS : SWF t false c := WF_imp_SWF c false _ _ hcWF
      obtain ⟨cc, nc, hscc⟩ : ∃ cc nc, splitChildren c t = some (cc, nc) := by
        cases hclf : c.isLeaf
        · refine ⟨_, _, splitChildren_internal hclf ?_⟩
          have := SWF_children_len hcS hclf
          omega
        · exact ⟨_, _, splitChildren_leaf hclf⟩
      obtain ⟨medk, medv, hmedk, hmedv, hsplit⟩ :=
        @split_child_spec K V (BTreeNode.mk ks vs cs false t) c (findPos ks k) t
          cc nc (by simp) h1 hget (by omega) (by omega) hscc
          (by simpa using hposle) (by simp [hvs]; omega)
      simp only [keys_mk, values_mk, children_mk, isLeaf_mk, minDegree_mk] at hsplit
      obtain ⟨hpw1, hpw2, hmedkb⟩ := split_pieces_WF h1 hcWF hfull hscc hmedk
      have hpieces := split_piece_inorder2 c.minDegree t h1 hscc
        hmedk hmedv hcdatas.1 (SWF_leaf_children hcS) (SWF_children_len hcS)
      have hknem : k ≠ medk := by
        intro hkm
        apply hfreshc
        rw [hkm]
        exact keys_mem_inorder hcdatas.1 (List.get?_mem hmedk)
      have hkp : (ks.take (findPos ks k) ++ medk :: ks.drop (findPos ks k)).get?
          (findPos ks k) = some medk := get?_append_self' htklen
      have hgetl : (cs.take (findPos ks k) ++
          BTreeNode.mk (c.keys.take (t - 1)) (c.values.take (t - 1)) cc c.isLeaf
            c.minDegree ::
          BTreeNode.mk (c.keys.drop t) (c.values.drop t) nc c.isLeaf t ::
          cs.drop (findPos ks k + 1)).get? (findPos ks k) =
          some (BTreeNode.mk (c.keys.take (t - 1)) (c.values.take (t - 1)) cc
            c.isLeaf c.minDegree) := get?_append_self' htclen
      have hgetr : (cs.take (findPos ks k) ++
          BTreeNode.mk (c.keys.take (t - 1)) (c.values.take (t - 1)) cc c.isLeaf
            c.minDegree ::
          BTreeNode.mk (c.keys.drop t) (c.values.drop t) nc c.isLeaf t ::
          cs.drop (findPos ks k + 1)).get? (findPos ks k + 1) =
          some (BTreeNode.mk (c.keys.drop t) (c.values.drop t) nc c.isLeaf t) :=
        get?_append_self_succ' htclen
      have hget' : (cs.take (findPos ks k) ++
          BTreeNode.mk (c.keys.take (t - 1)) (c.values.take (t - 1)) cc c.isLeaf
            c.minDegree ::
          BTreeNode.mk (c.keys.drop t) (c.values.drop t) nc c.isLeaf t ::
          cs.drop (findPos ks k + 1)).get?
            (if medk < k then findPos ks k + 1 else findPos ks k) =
          some (if medk < k then
              BTreeNode.mk (c.keys.drop t) (c.values.drop t) nc c.isLeaf t
            else
              BTreeNode.mk (c.keys.take (t - 1)) (c.values.take (t - 1)) cc
                c.isLeaf c.minDegree) := by
        by_cases hdir : medk < k
        · simp only [if_pos hdir]
          exact hgetr
        · simp only [if_neg hdir]
          exact hgetl
      have hc'WF : WF t false
          (if medk < k then some medk else olast lo (ks.take (findPos ks k)))
          (if medk < k then ohead hi (ks.drop (findPos ks k)) else some medk)
          (if medk < k then
            BTreeNode.mk (c.keys.drop t) (c.values.drop t) nc c.isLeaf t
          else
            BTreeNode.mk (c.keys.take (t - 1)) (c.values.take (t - 1)) cc
              c.isLeaf c.minDegree) := by
        by_cases hdir : medk < k
        · simpa [if_pos hdir] using hpw2
        · simpa [if_neg hdir] using hpw1
      have hc'keys : (if medk < k then
          BTreeNode.mk (c.keys.drop t) (c.values.drop t) nc c.isLeaf t
        else
          BTreeNode.mk (c.keys.take (t - 1)) (c.values.take (t - 1)) cc
            c.isLeaf c.minDegree).keys.length = t - 1 := by
        by_cases hdir : medk < k
        · simp [if_pos hdir, List.length_drop]
          omega
        · simp [if_neg hdir, List.length_take]
          omega
      have hkc' : inBounds
          (if medk < k then some medk else olast lo (ks.take (findPos ks k)))
          (if medk < k then ohead hi (ks.drop (findPos ks k)) else some medk) k := by
        by_cases hdir : medk < k
        · rw [if_pos hdir, if_pos hdir]
          refine ⟨?_, hkc.2⟩
          intro a ha
          obtain rfl : medk = a := by simpa using ha
          exact hdir
        · rw [if_neg hdir, if_neg hdir]
          refine ⟨hkc.1, ?_⟩
          intro b hb
          obtain rfl : medk = b := by simpa using hb
          rcases lt_or_eq_of_le (le_of_not_lt hdir) with hlt | rfl
          · exact hlt
          · exact absurd rfl hknem
      have hfreshc' : k ∉ ((inorder (if medk < k then
          BTreeNode.mk (c.keys.drop t) (c.values.drop t) nc c.isLeaf t
        else
          BTreeNode.mk (c.keys.take (t - 1)) (c.values.take (t - 1)) cc
            c.isLeaf c.minDegree)).map Prod.fst) := by
        intro hk
        apply hfreshc
        obtain ⟨p, hp, hpk⟩ := List.mem_map.mp hk
        refine List.mem_map.mpr ⟨p, ?_, hpk⟩
        rw [← hpieces]
        by_cases hdir : medk < k
        · rw [if_pos hdir] at hp
          simp [hp]
        · rw [if_neg hdir] at hp
          simp [hp]
      obtain ⟨c'', hrec, -, -, -, -, -, -, -⟩ :=
        insert_non_full_SWF h1 k v _ false (WF_imp_SWF _ false _ _ hc'WF)
          (by rw [hc'keys]; omega)
      have hc'lt : (if medk < k then
          BTreeNode.mk (c.keys.drop t) (c.values.drop t) nc c.isLeaf t
        else
          BTreeNode.mk (c.keys.take (t - 1)) (c.values.take (t - 1)) cc
            c.isLeaf c.minDegree).height <
          (BTreeNode.mk ks vs cs false t).height := by
        apply split_child_height hsplit
        simpa using List.get?_mem hget'
      have hc''WF := ih _ hc'lt false _ _ hc'WF (by rw [hc'keys]; omega) hkc'
        hfreshc' c'' hrec
      have heq := INFsplitEq (n := BTreeNode.mk ks vs cs false t) rfl hget
        (by simpa using hfull) hsplit hkp hget' hrec
      simp only [keys_mk, values_mk, children_mk, isLeaf_mk, minDegree_mk] at heq
      rw [heq] at heqn'
      obtain rfl : BTreeNode.mk
          (ks.take (findPos ks k) ++ medk :: ks.drop (findPos ks k))
          (vs.take (findPos ks k) ++ medv :: vs.drop (findPos ks k))
          ((cs.take (findPos ks k) ++
            BTreeNode.mk (c.keys.take (t - 1)) (c.values.take (t - 1)) cc c.isLeaf
              c.minDegree ::
            BTreeNode.mk (c.keys.drop t) (c.values.drop t) nc c.isLeaf t ::
            cs.drop (findPos ks k + 1)).set
              (if medk < k then findPos ks k + 1 else findPos ks k) c'')
          false t = n' := by
        simpa using heqn'
      have hApart : ∀ x ∈ ks.take (findPos ks k), x < medk := by
        intro x hx
        have hne : ks.take (findPos ks k) ≠ [] := List.ne_nil_of_mem hx
        obtain ⟨y, hy⟩ : ∃ y, (ks.take (findPos ks k)).getLast? = some y := by
          cases hgl : (ks.take (findPos ks k)).getLast? with
          | none => exact absurd (List.getLast?_eq_none_iff.mp hgl) hne
          | some y => exact ⟨y, rfl⟩
        have hymed : y < medk := by
          apply hmedkb.1
          rw [olast_eq_getLast? hne]
          exact hy
        exact lt_of_le_of_lt (mem_le_getLast_of_sorted
          (hsort.sublist (List.take_sublist _ _)) hx hy) hymed
      have hBpart : ∀ y ∈ ks.drop (findPos ks k), medk < y := by
        intro y hy
        have hne : ks.drop (findPos ks k) ≠ [] := List.ne_nil_of_mem hy
        obtain ⟨y0, hy0⟩ : ∃ y0, (ks.drop (findPos ks k)).head? = some y0 := by
          cases hh : (ks.drop (findPos ks k)).head? with
          | none => exact absurd (List.head?_eq_none_iff.mp hh) hne
          | some y0 => exact ⟨y0, rfl⟩
        have hmy0 : medk < y0 := by
          apply hmedkb.2
          cases htd : ks.drop (findPos ks k) with
          | nil => rw [htd] at hy0; simp at hy0
          | cons z zs =>
            obtain rfl : z = y0 := by rw [htd] at hy0; simpa using hy0
            rfl
        exact lt_of_lt_of_le hmy0 (mem_ge_head_of_sorted
          (hsort.sublist (List.drop_sublist _ _)) hy hy0)
      have hmedin : inBounds lo hi medk := by
        constructor
        · intro a ha
          cases htk : ks.take (findPos ks k) with
          | nil =>
            apply hmedkb.1
            rw [htk]
            simpa [olast] using ha
          | cons x xs =>
            have hne : ks.take (findPos ks k) ≠ [] := by rw [htk]; simp
            obtain ⟨y, hy⟩ : ∃ y, (ks.take (findPos ks k)).getLast? = some y := by
              cases hgl : (ks.take (findPos ks k)).getLast? with
              | none => exact absurd (List.getLast?_eq_none_iff.mp hgl) hne
              | some y => exact ⟨y, rfl⟩
            have hymed : y < medk := by
              apply hmedkb.1
              rw [olast_eq_getLast? hne]
              exact hy
            have hay : a < y :=
              (hbnd y (List.mem_of_mem_take (List.mem_of_getLast?_eq_some hy))).1 a ha
            exact lt_trans hay hymed
        · intro b hb
          cases htd : ks.drop (findPos ks k) with
          | nil =>
            apply hmedkb.2
            rw [htd]
            simpa [ohead] using hb
          | cons y ys =>
            have hmy : medk < y := by
              apply hmedkb.2
              rw [htd]
              rfl
            have hyb : y < b :=
              (hbnd y (List.mem_of_mem_drop (by rw [htd]; simp))).2 b hb
            exact lt_trans hmy hyb
      apply WF_intro rfl (by simp [List.length_take, List.length_drop]; omega)
        (by simp [List.length_take, List.length_drop]; omega)
        (by intro hrt; have := hmin hrt
            simp [List.length_take, List.length_drop]; omega)
      · apply pairwise_insert_middle _ hApart hBpart
        rw [List.take_append_drop]
        exact hsort
      · intro x hx
        rcases List.mem_append.mp hx with hxA | hxB
        · exact hbnd x (List.mem_of_mem_take hxA)
        · rcases List.mem_cons.mp hxB with rfl | hxB'
          · exact hmedin
          · exact hbnd x (List.mem_of_mem_drop hxB')
      · intro hlf
        cases hlf
      · intro hrt'
        by_cases hdir : medk < k
        · simp only [if_pos hdir] at hc''WF ⊢
          have hset : (cs.take (findPos ks k) ++
              BTreeNode.mk (c.keys.take (t - 1)) (c.values.take (t - 1)) cc c.isLeaf
                c.minDegree ::
              BTreeNode.mk (c.keys.drop t) (c.values.drop t) nc c.isLeaf t ::
              cs.drop (findPos ks k + 1)).set (findPos ks k + 1) c'' =
              cs.take (findPos ks k) ++
              BTreeNode.mk (c.keys.take (t - 1)) (c.values.take (t - 1)) cc c.isLeaf
                c.minDegree :: c'' :: cs.drop (findPos ks k + 1) := by
            rw [show cs.take (findPos ks k) ++
                BTreeNode.mk (c.keys.take (t - 1)) (c.values.take (t - 1)) cc c.isLeaf
                  c.minDegree ::
                BTreeNode.mk (c.keys.drop t) (c.values.drop t) nc c.isLeaf t ::
                cs.drop (findPos ks k + 1) =
              (cs.take (findPos ks k) ++
                [BTreeNode.mk (c.keys.take (t - 1)) (c.values.take (t - 1)) cc
                  c.isLeaf c.minDegree]) ++
                BTreeNode.mk (c.keys.drop t) (c.values.drop t) nc c.isLeaf t ::
                cs.drop (findPos ks k + 1) from by simp]
            rw [set_append_cons' (by simp [htclen])]
            simp
          rw [hset]
          exact hins medk _ c'' hpw1 hc''WF
        · simp only [if_neg hdir] at hc''WF ⊢
          have hset : (cs.take (findPos ks k) ++
              BTreeNode.mk (c.keys.take (t - 1)) (c.values.take (t - 1)) cc c.isLeaf
                c.minDegree ::
              BTreeNode.mk (c.keys.drop t) (c.values.drop t) nc c.isLeaf t ::
              cs.drop (findPos ks k + 1)).set (findPos ks k) c'' =
              cs.take (findPos ks k) ++
              c'' :: BTreeNode.mk (c.keys.drop t) (c.values.drop t) nc c.isLeaf t ::
              cs.drop (findPos ks k + 1) := by
            exact set_append_cons' htclen
          rw [hset]
          exact hins medk c'' _ hc''WF hpw2
    · -- child not full: descend directly and patch the child back in
      have hcS : SWF t false c := WF_imp_SWF c false _ _ hcWF
      obtain ⟨c'', hrec, -, -, -, -, -, -, -⟩ :=
        insert_non_full_SWF h1 k v c false hcS (lt_of_le_of_ne hcdatas.2 hfull)
      have hc''WF := ih c (height_lt_of_mem (by simpa using hcmem)) false _ _ hcWF
        (lt_of_le_of_ne hcdatas.2 hfull) hkc hfreshc c'' hrec
      have heq := INFnosplitEq (n := BTreeNode.mk ks vs cs false t) rfl
        (by simpa using hget) (by simpa using hfull) hrec
      simp only [keys_mk, values_mk, children_mk, isLeaf_mk, minDegree_mk] at heq
      rw [heq] at heqn'
      obtain rfl : BTreeNode.mk ks vs (cs.set (findPos ks k) c'') false t = n' := by
        simpa using heqn'
      apply WF_intro rfl hvs hkle hmin hsort hbnd (by intro h; cases h)
      intro hlf
      have hset : cs.set (findPos ks k) c'' =
          cs.take (findPos ks k) ++ c'' :: cs.drop (findPos ks k + 1) := by
        conv_lhs => rw [hcsdec]
        exact set_append_cons' htclen
      rw [hset]
      have hres := hrep c'' hc''WF
      rwa [List.take_append_drop] at hres

theorem findPos_mem_sorted [LinearOrder K] {l : List K} {q : K}
    (hs : List.Pairwise (· < ·) l) (h : q ∈ l) :
    l.get? (findPos l q) = some q := by
  induction l with
  | nil => cases h
  | cons x xs ih =>
    by_cases hq : q ≤ x
    · simp only [findPos, if_pos hq, List.get?]
      rcases List.mem_cons.mp h with rfl | h'
      · rfl
      · exact absurd (List.rel_of_pairwise_cons hs h') (not_lt.mpr hq)
    · simp only [findPos, if_neg hq, List.get?]
      rcases List.mem_cons.mp h with rfl | h'
      · exact absurd (le_refl q) hq
      · exact ih (List.pairwise_cons.mp hs).2 h'

theorem pair_mem_unique [LinearOrder K] {q : K} {v w : V} :
    ∀ {l : List (K × V)}, List.Pairwise (· < ·) (l.map Prod.fst) →
      (q, v) ∈ l → (q, w) ∈ l → v = w := by
  intro l
  induction l with
  | nil => intro _ h1; cases h1
  | cons p l ih =>
    intro hs h1 h2
    rw [List.map_cons, List.pairwise_cons] at hs
    rcases List.mem_cons.mp h1 with h1' | h1'
    · rcases List.mem_cons.mp h2 with h2' | h2'
      · obtain rfl := h1'
        simpa using h2'.symm
      · obtain rfl := h1'
        exact absurd (hs.1 q (List.mem_map.mpr ⟨(q, w), h2', rfl⟩)) (lt_irrefl q)
    · rcases List.mem_cons.mp h2 with h2' | h2'
      · obtain rfl := h2'
        exact absurd (hs.1 q (List.mem_map.mpr ⟨(q, v), h1', rfl⟩)) (lt_irrefl q)
      · exact ih hs.2 h1' h2'

/-- On an ordered well-formed node, searching for a key that is nowhere in
the subtree returns the absent result (and does not panic). -/
theorem search_notfound [LinearOrder K] {t : Nat} (q : K) :
    ∀ n : BTreeNode K V, ∀ (rt : Bool) (lo hi : Option K), WF t rt lo hi n →
      q ∉ (inorder n).map Prod.fst → search_in_node n q = some none := by
  apply BTreeNode.heightInduction
  intro n ih rt lo hi h hfresh
  cases n with
  | mk ks vs cs lf md =>
  obtain ⟨hmd, hvs, hkle, hmin, hsort, hbnd, hlfT, hlfF⟩ := WF_elim h
  rw [inorder] at hfresh
  rw [search_in_node.eq_def]
  simp only [keys_mk, values_mk, children_mk, isLeaf_mk]
  have hhit : ¬(ks.get? (findPos ks q) = some q) := by
    intro hh
    exact hfresh (node_keys_mem_inorder hvs (List.get?_mem hh))
  rw [if_neg hhit]
  cases lf with
  | true => rfl
  | false =>
    simp only [Bool.false_eq_true, if_false]
    split
    · rfl
    · rename_i c hc
      obtain ⟨b, -, hwf⟩ := WFlist_mem_exists (hlfF rfl) (List.get?_mem hc)
      apply ih c (height_lt_of_mem (by simpa using List.get?_mem hc)) false
        b.1 b.2 hwf
      intro hq
      obtain ⟨p, hp, hpk⟩ := List.mem_map.mp hq
      exact hfresh (List.mem_map.mpr
        ⟨p, inorder_child_subset (List.get?_mem hc) hp, hpk⟩)

/-- On an ordered well-formed node, searching for a key that the subtree
binds to `v` returns exactly `v`. -/
theorem search_found [LinearOrder K] {t : Nat} (q : K) (v : V) :
    ∀ n : BTreeNode K V, ∀ (rt : Bool) (lo hi : Option K), WF t rt lo hi n →
      (q, v) ∈ inorder n → search_in_node n q = some (some v) := by
  apply BTreeNode.heightInduction
  intro n ih rt lo hi h hmem
  cases n with
  | mk ks vs cs lf md =>
  obtain ⟨hmd, hvs, hkle, hmin, hsort, hbnd, hlfT, hlfF⟩ := WF_elim h
  subst md
  have hflat := (WF_flatten (BTreeNode.mk ks vs cs lf t) rt lo hi h).1
  rw [inorder] at hmem hflat
  rw [search_in_node.eq_def]
  simp only [keys_mk, values_mk, children_mk, isLeaf_mk]
  by_cases hqks : q ∈ ks
  · have hhit : ks.get? (findPos ks q) = some q := findPos_mem_sorted hsort hqks
    rw [if_pos hhit]
    have hlt : findPos ks q < ks.length := (List.get?_eq_some.mp hhit).1
    obtain ⟨v0, hv0⟩ : ∃ v0, vs.get? (findPos ks q) = some v0 :=
      ⟨_, List.get?_eq_get (by omega)⟩
    have hzmem : (q, v0) ∈ glue cs (ks.zip vs) :=
      mem_glue.mpr (Or.inr (List.get?_mem (get?_zip_eq_some.mpr ⟨hhit, hv0⟩)))
    obtain rfl : v0 = v := pair_mem_unique hflat hzmem hmem
    rw [hv0]
  · have hhit : ¬(ks.get? (findPos ks q) = some q) := by
      intro hh
      exact hqks (List.get?_mem hh)
    rw [if_neg hhit]
    rcases mem_glue.mp hmem with ⟨c, hcmem, hcin⟩ | hzip
    · obtain ⟨j, hj⟩ := List.mem_iff_get?.mp hcmem
      cases lf with
      | true =>
        rw [hlfT rfl] at hj
        simp at hj
      | false =>
        have hjle : j ≤ ks.length := by
          have h1 := WFlist_length (hlfF rfl)
          rw [childBounds_length] at h1
          have h2 : j < cs.length := (List.get?_eq_some.mp hj).1
          omega
        have hmain : ∃ blo bhi, WF t false blo bhi c ∧ findPos ks q = j := by
          cases hjget : ks.get? j with
          | some kj =>
            have hbj : (childBounds lo ks hi).get? j =
                some (olast lo (ks.take j), some kj) := childBounds_get?_lt hjget
            have hwc := WFlist_get? (hlfF rfl) hbj hj
            have hqb := (WF_flatten c false _ _ hwc).2 (q, v) hcin
            refine ⟨_, _, hwc, findPos_eq_of_bounds hsort hjle ?_ ?_⟩
            · intro y hy
              have hne : ks.take j ≠ [] := by
                intro h0
                rw [h0] at hy
                simp at hy
              apply hqb.1
              rw [olast_eq_getLast? hne]
              exact hy
            · intro y hy
              rw [drop_eq_cons_of_get? hjget] at hy
              obtain rfl : kj = y := by simpa using hy
              exact le_of_lt (hqb.2 kj rfl)
          | none =>
            obtain rfl : j = ks.length :=
              le_antisymm hjle (List.get?_eq_none.mp hjget)
            have hbj : (childBounds lo ks hi).get? ks.length =
                some (olast lo ks, hi) := childBounds_get?_last
            have hwc := WFlist_get? (hlfF rfl) hbj hj
            have hqb := (WF_flatten c false _ _ hwc).2 (q, v) hcin
            refine ⟨_, _, hwc, findPos_eq_of_bounds hsort hjle ?_ ?_⟩
            · intro y hy
              rw [List.take_length] at hy
              have hne : ks ≠ [] := by
                intro h0
                rw [h0] at hy
                simp at hy
              apply hqb.1
              rw [olast_eq_getLast? hne]
              exact hy
            · intro y hy
              rw [List.drop_length] at hy
              simp at hy
        obtain ⟨blo, bhi, hwc, hpos⟩ := hmain
        simp only [Bool.false_eq_true, if_false]
        split
        · rename_i hnone
          rw [hpos, hj] at hnone
          cases hnone
        · rename_i c0 hc0
          rw [hpos, hj] at hc0
          obtain rfl : c0 = c := by simpa [eq_comm] using hc0
          exact ih c0 (height_lt_of_mem (by simpa using hcmem)) false blo bhi
            hwc hcin
    · exact absurd (List.of_mem_zip hzip).1 hqks

theorem WF_root_to_child [LinearOrder K] {t : Nat} {lo hi : Option K}
    {n : BTreeNode K V} (h : WF t true lo hi n) (hk : t - 1 ≤ n.keys.length) :
    WF t false lo hi n := by
  cases n with
  | mk ks vs cs lf md =>
    obtain ⟨hmd, hvs, hkle, -, hsort, hbnd, hlfT, hlfF⟩ := WF_elim h
    exact WF_intro hmd hvs hkle (fun _ => by simpa using hk) hsort hbnd hlfT hlfF

theorem MapOrd_imp_MapInv [LinearOrder K] {t : Nat} {m : BTreeMap K V}
    (h : MapOrd t m) : MapInv t m := by
  obtain ⟨ro, md⟩ := m
  obtain ⟨h1, h2⟩ := h
  refine ⟨h1, ?_⟩
  cases ro with
  | none => trivial
  | some r => exact ⟨WF_imp_SWF r true none none h2.1, h2.2⟩

/-- Inserting a key absent from the map preserves the map-level ordered
invariant. -/
theorem insert_MapOrd [LinearOrder K] {t : Nat} (h2 : 2 ≤ t) {m : BTreeMap K V}
    (hm : MapOrd t m) (k : K) (v : V)
    (hf : k ∉ (contents m).map Prod.fst) :
    ∃ m', m.insert k v = some m' ∧ MapOrd t m' := by
  have h1 : 1 ≤ t := by omega
  obtain ⟨ro, md'⟩ := m
  obtain ⟨hmd, hro⟩ := hm
  simp only at hmd
  subst md'
  cases ro with
  | none =>
    obtain ⟨r', hr', hr'SWF, hperm, hge, hle, hleaf1, hudt, hlfeq⟩ :=
      insert_non_full_SWF h1 k v (BTreeNode.new t true) true SWF_new
        (by rw [BTreeNode.new]; simp; omega)
    have hWF0 : WF t true none none (BTreeNode.new t true : BTreeNode K V) := by
      rw [BTreeNode.new]
      exact WF_intro rfl rfl (by simp) (by intro h0; cases h0) (by simp)
        (by simp) (fun _ => rfl) (by intro h0; cases h0)
    have hr'WF : WF t true none none r' :=
      insert_non_full_WF h1 k v (BTreeNode.new t true) true none none hWF0
        (by rw [BTreeNode.new]; simp; omega) ⟨by simp, by simp⟩
        (by rw [inorder_new]; simp) r' hr'
    refine ⟨⟨some r', t⟩, ?_, rfl, hr'WF, ?_⟩
    · rw [BTreeMap.insert]
      simp only [Option.getD_none, BTreeNode.new, keys_mk, List.length_nil]
      rw [if_neg (by omega)]
      rw [show (BTreeNode.new t true : BTreeNode K V) = BTreeNode.mk [] [] [] true t
        from rfl] at hr'
      simp only [bind, hr', Option.some_bind, Option.pure_def]
    · have := hleaf1 (by simp [BTreeNode.new])
      rw [BTreeNode.new] at this
      simp at this
      omega
  | some r =>
    obtain ⟨hrWF, hrpos⟩ := hro
    have hrSWF : SWF t true r := WF_imp_SWF r true none none hrWF
    simp only [contents] at hf
    by_cases hfull : r.keys.length = 2 * t - 1
    · -- root growth
      have hrchild : WF t false none none r :=
        WF_root_to_child hrWF (by omega)
      have hrvals : r.values.length = r.keys.length := SWF_values_len hrSWF
      obtain ⟨cc, nc, hscc⟩ : ∃ cc nc, splitChildren r t = some (cc, nc) := by
        cases hclf : r.isLeaf
        · refine ⟨_, _, splitChildren_internal hclf ?_⟩
          have := SWF_children_len hrSWF hclf
          omega
        · exact ⟨_, _, splitChildren_leaf hclf⟩
      obtain ⟨medk, medv, hmedk, hmedv, hsplit⟩ :=
        @split_child_spec K V (BTreeNode.mk [] [] [r] false t) r 0 t cc nc
          (by simp) h1 rfl (by omega) (by omega) hscc (by simp) (by simp)
      simp only [keys_mk, values_mk, children_mk, isLeaf_mk, minDegree_mk,
        List.take_nil, List.drop_nil, List.nil_append, List.take_zero] at hsplit
      obtain ⟨hpw1, hpw2, -⟩ := split_pieces_WF h1 hrchild hfull hscc hmedk
      have hg'WF : WF t true none none (BTreeNode.mk [medk] [medv]
          ([BTreeNode.mk (r.keys.take (t - 1)) (r.values.take (t - 1)) cc r.isLeaf
              r.minDegree,
            BTreeNode.mk (r.keys.drop t) (r.values.drop t) nc r.isLeaf t])
          false t) := by
        refine WF_intro rfl rfl (by simp; omega) (by intro h0; cases h0)
          (by simp) (by simp [inBounds]) (by intro h0; cases h0) ?_
        intro hlf0
        simp only [childBounds, WFlist]
        exact ⟨hpw1, hpw2, trivial⟩
      have hpieces := split_piece_inorder2 r.minDegree t h1 hscc
        hmedk hmedv hrvals (SWF_leaf_children hrSWF) (SWF_children_len hrSWF)
      have hval : inorder (BTreeNode.mk [medk] [medv]
          ([BTreeNode.mk (r.keys.take (t - 1)) (r.values.take (t - 1)) cc
              r.isLeaf r.minDegree,
            BTreeNode.mk (r.keys.drop t) (r.values.drop t) nc r.isLeaf t])
          false t) = inorder r := by
        rw [inorder]
        simp only [List.zip_cons_cons, List.zip_nil_left]
        rw [glue, glue, glue]
        simpa using hpieces
      obtain ⟨g'', hg'', hg''SWF, hperm, hge, hle, -, hudt, -⟩ :=
        insert_non_full_SWF h1 k v _ true (WF_imp_SWF _ true none none hg'WF)
          (by simp; omega)
      have hg''WF : WF t true none none g'' :=
        insert_non_full_WF h1 k v _ true none none hg'WF (by simp; omega)
          ⟨by simp, by simp⟩ (by rw [hval]; exact hf) g'' hg''
      refine ⟨⟨some g'', t⟩, ?_, rfl, hg''WF, ?_⟩
      · rw [BTreeMap.insert]
        simp only [Option.getD_some]
        rw [if_pos (by simpa using hfull)]
        have hsplit' : (BTreeNode.mk ([] : List K) ([] : List V) [r] false t).split_child 0 =
            some (BTreeNode.mk [medk] [medv]
              ([BTreeNode.mk (r.keys.take (t - 1)) (r.values.take (t - 1)) cc
                  r.isLeaf r.minDegree,
                BTreeNode.mk (r.keys.drop t) (r.values.drop t) nc r.isLeaf t])
              false t) := by
          rw [hsplit]
          rfl
        simp only [bind, hsplit', Option.some_bind, hg'', Option.pure_def]
      · simp only [keys_mk, List.length_cons, List.length_nil] at hge
        omega
    · -- root not full: descend directly
      have hkle := SWF_keys_le hrSWF
      obtain ⟨r', hr', hr'SWF, hperm, hge, hle, -, hudt, -⟩ :=
        insert_non_full_SWF h1 k v r true hrSWF (by omega)
      have hr'WF : WF t true none none r' :=
        insert_non_full_WF h1 k v r true none none hrWF (by omega)
          ⟨by simp, by simp⟩ hf r' hr'
      refine ⟨⟨some r', t⟩, ?_, rfl, hr'WF, by omega⟩
      rw [BTreeMap.insert]
      simp only [Option.getD_some]
      rw [if_neg (by simpa using hfull)]
      simp only [bind, hr', Option.some_bind, Option.pure_def]

/-- Folding insertions with pairwise distinct keys, all absent from the
starting map, over an ordered well-formed map succeeds and preserves the
ordered invariant, accumulating exactly the inserted pairs. -/
theorem insertList_MapOrd [LinearOrder K] {t : Nat} (h2 : 2 ≤ t) :
    ∀ (ps : List (K × V)) (m : BTreeMap K V), MapOrd t m →
      List.Pairwise (· ≠ ·) (ps.map Prod.fst) →
      (∀ p ∈ ps, p.1 ∉ (contents m).map Prod.fst) →
      ∃ m', insertList m ps = some m' ∧ MapOrd t m' ∧
        (contents m').Perm (ps ++ contents m) := by
  intro ps
  induction ps with
  | nil =>
    intro m hm hdist hfresh
    exact ⟨m, rfl, hm, by simp⟩
  | cons p qs ih =>
    intro m hm hdist hfresh
    obtain ⟨m1, hm1, hmo1⟩ :=
      insert_MapOrd h2 hm p.1 p.2 (hfresh p (List.mem_cons_self p qs))
    obtain ⟨m1', hm1', -, hperm1, -, -⟩ := insert_SWF h2 (MapOrd_imp_MapInv hm) p.1 p.2
    rw [hm1] at hm1'
    obtain rfl : m1 = m1' := by simpa using hm1'
    rw [List.map_cons, List.pairwise_cons] at hdist
    have hfresh1 : ∀ q ∈ qs, q.1 ∉ (contents m1).map Prod.fst := by
      intro q hq hq1
      have := ((hperm1.map Prod.fst).mem_iff).mp hq1
      rw [List.map_cons, List.mem_cons] at this
      rcases this with heq | hmem0
      · exact hdist.1 q.1 (List.mem_map.mpr ⟨q, hq, rfl⟩) heq.symm
      · exact hfresh q (List.mem_cons_of_mem p hq) hmem0
    obtain ⟨m', hm', hmo', hperm'⟩ := ih m1 hmo1 hdist.2 hfresh1
    refine ⟨m', ?_, hmo', ?_⟩
    · rw [insertList, hm1]
      simpa using hm'
    · refine hperm'.trans ?_
      have hstep : (qs ++ contents m1).Perm (qs ++ p :: contents m) :=
        List.Perm.append_left qs hperm1
      exact hstep.trans List.perm_middle

end OrderedSupport

section FuelEval

variable {K V : Type}

/-- Fuel-bounded clone of `insert_non_full`, structural in the fuel so that
concrete traces evaluate by reduction; it agrees with `insert_non_full`
whenever it returns. -/
def insertNF [LinearOrder K] : Nat → BTreeNode K V → K → V → Option (BTreeNode K V)
  | 0, _, _, _ => none
  | fuel + 1, n, k, v =>
    let pos := findPos n.keys k
    if n.isLeaf then
      match vinsert n.keys pos k, vinsert n.values pos v with
      | some keys', some values' =>
          some (BTreeNode.mk keys' values' n.children n.isLeaf n.minDegree)
      | _, _ => none
    else
      match n.children.get? pos with
      | none => none
      | some c =>
        if c.keys.length = 2 * n.minDegree - 1 then
          match n.split_child pos with
          | none => none
          | some n' =>
            match n'.keys.get? pos with
            | none => none
            | some kp =>
              let i := if kp < k then pos + 1 else pos
              match n'.children.get? i with
              | none => none
              | some c' =>
                match insertNF fuel c' k v with
                | none => none
                | some c'' =>
                    some (BTreeNode.mk n'.keys n'.values (n'.children.set i c'')
                      n'.isLeaf n'.minDegree)
        else
          match insertNF fuel c k v with
          | none => none
          | some cNew =>
              some (BTreeNode.mk n.keys n.values (n.children.set pos cNew)
                n.isLeaf n.minDegree)

theorem insertNF_sound [LinearOrder K] :
    ∀ (fuel : Nat) (n : BTreeNode K V) (k : K) (v : V) (r : BTreeNode K V),
      insertNF fuel n k v = some r → n.insert_non_full k v = some r := by
  intro fuel
  induction fuel with
  | zero =>
    intro n k v r h
    simp [insertNF] at h
  | succ fuel ih =>
    intro n k v r h
    simp only [insertNF] at h
    by_cases hlf : n.isLeaf = true
    · rw [if_pos hlf] at h
      cases hvk : vinsert n.keys (findPos n.keys k) k with
      | none =>
        cases hvv : vinsert n.values (findPos n.keys k) v with
        | none => simp only [hvk, hvv] at h; cases h
        | some vs' => simp only [hvk, hvv] at h; cases h
      | some ks' =>
        cases hvv : vinsert n.values (findPos n.keys k) v with
        | none => simp only [hvk, hvv] at h; cases h
        | some vs' =>
          simp only [hvk, hvv] at h
          obtain rfl := Option.some.inj h
          exact INFleafEq hlf hvk hvv
    · rw [if_neg hlf] at h
      rw [Bool.not_eq_true] at hlf
      cases hc : n.children.get? (findPos n.keys k) with
      | none => simp only [hc] at h; cases h
      | some c =>
        simp only [hc] at h
        by_cases hfull : c.keys.length = 2 * n.minDegree - 1
        · rw [if_pos hfull] at h
          cases hs : n.split_child (findPos n.keys k) with
          | none => simp only [hs] at h; cases h
          | some n' =>
            simp only [hs] at h
            cases hkp : n'.keys.get? (findPos n.keys k) with
            | none => simp only [hkp] at h; cases h
            | some kp =>
              simp only [hkp] at h
              cases hc' : n'.children.get?
                  (if kp < k then findPos n.keys k + 1 else findPos n.keys k) with
              | none => simp only [hc'] at h; cases h
              | some c' =>
                simp only [hc'] at h
                cases hrec : insertNF fuel c' k v with
                | none => simp only [hrec] at h; cases h
                | some c'' =>
                  simp only [hrec] at h
                  obtain rfl := Option.some.inj h
                  exact INFsplitEq hlf hc hfull hs hkp hc' (ih c' k v c'' hrec)
        · rw [if_neg hfull] at h
          cases hrec : insertNF fuel c k v with
          | none => simp only [hrec] at h; cases h
          | some cNew =>
            simp only [hrec] at h
            obtain rfl := Option.some.inj h
            exact INFnosplitEq hlf hc hfull (ih c k v cNew hrec)

/-- Fuel-bounded clone of `search_in_node`. -/
def searchNF [LinearOrder K] : Nat → BTreeNode K V → K → Option (Option V)
  | 0, _, _ => none
  | fuel + 1, n, k =>
    let pos := findPos n.keys k
    if n.keys.get? pos = some k then
      match n.values.get? pos with
      | none => none
      | some v => some (some v)
    else
      if n.isLeaf then some none
      else
        match n.children.get? pos with
        | none => some none
        | some c => searchNF fuel c k

theorem searchNF_sound [LinearOrder K] :
    ∀ (fuel : Nat) (n : BTreeNode K V) (k : K) (res : Option V),
      searchNF fuel n k = some res → search_in_node n k = some res := by
  intro fuel
  induction fuel with
  | zero =>
    intro n k res h
    simp [searchNF] at h
  | succ fuel ih =>
    intro n k res h
    rw [search_in_node.eq_def]
    simp only [searchNF] at h
    by_cases hhit : n.keys.get? (findPos n.keys k) = some k
    · rw [if_pos hhit] at h ⊢
      cases hv : n.values.get? (findPos n.keys k) with
      | none => simp only [hv] at h; cases h
      | some v0 =>
        simp only [hv] at h ⊢
        exact h
    · rw [if_neg hhit] at h ⊢
      by_cases hlf : n.isLeaf = true
      · rw [if_pos hlf] at h ⊢
        exact h
      · rw [if_neg hlf] at h ⊢
        split
        · rename_i hnone
          simp only [hnone] at h
          exact h
        · rename_i c hcg
          simp only [hcg] at h
          exact ih c k res h

/-- Fuel-bounded clone of `BTreeMap.insert`. -/
def insertMapNF [LinearOrder K] (fuel : Nat) (m : BTreeMap K V) (k : K) (v : V) :
    Option (BTreeMap K V) :=
  let root := m.root.getD (BTreeNode.new m.min_degree true)
  if root.keys.length = 2 * m.min_degree - 1 then
    match (BTreeNode.mk [] [] [root] false m.min_degree).split_child 0 with
    | none => none
    | some g' =>
      match insertNF fuel g' k v with
      | none => none
      | some g'' => some ⟨some g'', m.min_degree⟩
  else
    match insertNF fuel root k v with
    | none => none
    | some r' => some ⟨some r', m.min_degree⟩

theorem insertMapNF_sound [LinearOrder K] (fuel : Nat) {m m' : BTreeMap K V}
    {k : K} {v : V} (h : insertMapNF fuel m k v = some m') :
    m.insert k v = some m' := by
  rw [BTreeMap.insert]
  rw [insertMapNF] at h
  by_cases hfull : (m.root.getD (BTreeNode.new m.min_degree true)).keys.length =
      2 * m.min_degree - 1
  · rw [if_pos hfull] at h ⊢
    cases hs : (BTreeNode.mk [] [] [m.root.getD (BTreeNode.new m.min_degree true)]
        false m.min_degree).split_child 0 with
    | none => simp only [hs] at h; cases h
    | some g' =>
      simp only [hs] at h
      cases hg : insertNF fuel g' k v with
      | none => simp only [hg] at h; cases h
      | some g'' =>
        simp only [hg] at h
        simp only [bind, hs, Option.some_bind, insertNF_sound fuel g' k v g'' hg,
          Option.pure_def]
        exact h
  · rw [if_neg hfull] at h ⊢
    cases hg : insertNF fuel (m.root.getD (BTreeNode.new m.min_degree true)) k v with
    | none => simp only [hg] at h; cases h
    | some r' =>
      simp only [hg] at h
      simp only [bind, insertNF_sound fuel _ k v r' hg, Option.some_bind,
        Option.pure_def]
      exact h

/-- Fuel-bounded clone of `insertList`. -/
def insertListNF [LinearOrder K] (fuel : Nat) :
    BTreeMap K V → List (K × V) → Option (BTreeMap K V)
  | m, [] => some m
  | m, p :: ps =>
    match insertMapNF fuel m p.1 p.2 with
    | none => none
    | some m1 => insertListNF fuel m1 ps

theorem insertListNF_sound [LinearOrder K] (fuel : Nat) :
    ∀ (ps : List (K × V)) (m m' : BTreeMap K V),
      insertListNF fuel m ps = some m' → insertList m ps = some m' := by
  intro ps
  induction ps with
  | nil =>
    intro m m' h
    simpa [insertListNF, insertList] using h
  | cons p qs ih =>
    intro m m' h
    rw [insertListNF] at h
    rw [insertList]
    cases hm1 : insertMapNF fuel m p.1 p.2 with
    | none => simp only [hm1] at h; cases h
    | some m1 =>
      simp only [hm1] at h
      simp only [bind, insertMapNF_sound fuel hm1, Option.some_bind]
      exact ih m1 m' h

/-- Fuel-bounded clone of `BTreeMap.search`. -/
def searchMapNF [LinearOrder K] (fuel : Nat) (m : BTreeMap K V) (k : K) :
    Option (Option V) :=
  match m.root with
  | none => some none
  | some r => searchNF fuel r k

theorem searchMapNF_sound [LinearOrder K] (fuel : Nat) {m : BTreeMap K V}
    {k : K} {res : Option V} (h : searchMapNF fuel m k = some res) :
    m.search k = some res := by
  rw [BTreeMap.search.eq_def]
  rw [searchMapNF] at h
  cases hr : m.root with
  | none =>
    simp only [hr] at h ⊢
    exact h
  | some r =>
    simp only [hr] at h ⊢
    exact searchNF_sound fuel r k res h

end FuelEval

section ClaimSupport

variable {K V : Type}

theorem MapOrd_new [LinearOrder K] {t : Nat} :
    MapOrd t (BTreeMap.new t : BTreeMap K V) :=
  ⟨rfl, trivial⟩

theorem findPos_append_self [LinearOrder K] {A B : List K} {k : K}
    (hA : ∀ x ∈ A, x < k) : findPos (A ++ k :: B) k = A.length := by
  induction A with
  | nil => simp [findPos]
  | cons a A ih =>
    simp only [List.cons_append, findPos,
      if_neg (not_le.mpr (hA a (List.mem_cons_self a A))), List.length_cons,
      List.append_eq]
    rw [ih fun x hx => hA x (List.mem_cons_of_mem a hx)]

theorem WF_AllNodes_sorted [LinearOrder K] {t : Nat} :
    ∀ n : BTreeNode K V, ∀ (rt : Bool) (lo hi : Option K), WF t rt lo hi n →
      AllNodes (fun x => List.Pairwise (· < ·) x.keys) n := by
  apply BTreeNode.heightInduction
  intro n ih rt lo hi h
  cases n with
  | mk ks vs cs lf md =>
  obtain ⟨-, -, -, -, hsort, -, hlfT, hlfF⟩ := WF_elim h
  rw [AllNodes]
  constructor
  · simpa using hsort
  · cases hlf : lf
    · apply AllNodesList_intro
      intro c hc
      obtain ⟨b, -, hwf⟩ := WFlist_mem_exists (hlfF hlf) hc
      exact ih c (height_lt_of_mem (by simpa using hc)) false b.1 b.2 hwf
    · rw [hlfT hlf]
      trivial

end ClaimSupport

section Claims

variable {K V : Type}

/-- C1: for every minimum degree `t ≥ 2` and every insertion sequence with
pairwise distinct keys applied to `new t`, `search` returns Some of the
inserted value for every inserted key and the absent result (inner `none`)
for every key never inserted — in particular for every search on the
still-empty map (the sequence may be empty). -/
theorem C1_insert_then_search [LinearOrder K] {t : Nat} (h2 : 2 ≤ t)
    (ps : List (K × V)) (hdist : List.Pairwise (· ≠ ·) (ps.map Prod.fst)) :
    ∃ m', insertList (BTreeMap.new t) ps = some m' ∧
      (∀ k v, (k, v) ∈ ps → m'.search k = some (some v)) ∧
      (∀ q, q ∉ ps.map Prod.fst → m'.search q = some none) := by
  obtain ⟨m', hm', hmo', hperm⟩ := insertList_MapOrd h2 ps (BTreeMap.new t)
    MapOrd_new hdist (by intro p hp; simp [contents, BTreeMap.new])
  have hcm : (contents m').Perm ps := by
    simpa [contents, BTreeMap.new] using hperm
  refine ⟨m', hm', ?_, ?_⟩
  · intro k v hkv
    have hmem : (k, v) ∈ contents m' := hcm.mem_iff.mpr hkv
    obtain ⟨ro', mdx⟩ := m'
    cases ro' with
    | none => simp [contents] at hmem
    | some r =>
      obtain ⟨-, hro'⟩ := hmo'
      obtain ⟨hWF, -⟩ := hro'
      have hmem' : (k, v) ∈ inorder r := by simpa [contents] using hmem
      exact search_found k v r true none none hWF hmem'
  · intro q hq
    have hqc : q ∉ (contents m').map Prod.fst := by
      intro hc
      exact hq ((hcm.map Prod.fst).mem_iff.mp hc)
    obtain ⟨ro', mdx⟩ := m'
    cases ro' with
    | none => exact rfl
    | some r =>
      obtain ⟨-, hro'⟩ := hmo'
      obtain ⟨hWF, -⟩ := hro'
      have hq' : q ∉ (inorder r).map Prod.fst := by simpa [contents] using hqc
      exact search_notfound q r true none none hWF hq'

/-- C1 witness: a concrete two-insert run at `t = 2`. -/
theorem C1_insert_then_search_witness :
    ∃ m', insertList (BTreeMap.new 2 : BTreeMap Int Nat) [(1, 10), (2, 20)] = some m' ∧
      (∀ k v, (k, v) ∈ [((1 : Int), (10 : Nat)), (2, 20)] → m'.search k = some (some v)) ∧
      (∀ q, q ∉ [((1 : Int), (10 : Nat)), (2, 20)].map Prod.fst → m'.search q = some none) :=
  C1_insert_then_search (by omega) [(1, 10), (2, 20)] (by decide)

/-- C2 counterexample: with `t = 2`, after inserting keys 10, 20, 5, 6 the
key 10 sits in the internal root; inserting a second binding `(10, 99)`
places the new pair in the left leaf, and `search(&10)` still returns the
OLD value 0, not the newly inserted 99 — refuting the claim that lookups
find the newest value for a re-inserted key. -/
theorem C2_counterexample :
    insertList (BTreeMap.new 2 : BTreeMap Int Nat) [(10, 0), (20, 1), (5, 2), (6, 3)] =
      some ⟨some (BTreeNode.mk [10] [0]
        [BTreeNode.mk [5, 6] [2, 3] [] true 2,
         BTreeNode.mk [20] [1] [] true 2] false 2), 2⟩ ∧
    (⟨some (BTreeNode.mk [10] [0]
        [BTreeNode.mk [5, 6] [2, 3] [] true 2,
         BTreeNode.mk [20] [1] [] true 2] false 2), 2⟩ : BTreeMap Int Nat).insert 10 99 =
      some ⟨some (BTreeNode.mk [10] [0]
        [BTreeNode.mk [5, 6, 10] [2, 3, 99] [] true 2,
         BTreeNode.mk [20] [1] [] true 2] false 2), 2⟩ ∧
    (⟨some (BTreeNode.mk [10] [0]
        [BTreeNode.mk [5, 6, 10] [2, 3, 99] [] true 2,
         BTreeNode.mk [20] [1] [] true 2] false 2), 2⟩ : BTreeMap Int Nat).search 10 =
      some (some 0) ∧
    (0 : Nat) ≠ 99 :=
  ⟨insertListNF_sound 9 _ _ _ rfl, insertMapNF_sound 9 rfl,
   searchMapNF_sound 9 rfl, by decide⟩

/-- C2 amended: the claimed behaviour does hold in the case the spec's own
example exercises — a root that is a non-full leaf. There inserting `k`
again places the new pair before any existing equal key, and `search`
returns the new value. (The counterexample shows the general claim fails
when the old copy of the key sits in an ancestor of the leaf receiving the
new pair.) -/
theorem C2_amended [LinearOrder K] {m : BTreeMap K V} {r : BTreeNode K V}
    (hroot : m.root = some r) (hleaf : r.isLeaf = true)
    (hvals : r.values.length = r.keys.length)
    (hnotfull : r.keys.length < 2 * m.min_degree - 1)
    (k : K) (vold : V) (hbound : (k, vold) ∈ inorder r) (vnew : V) :
    ∃ m', m.insert k vnew = some m' ∧ m'.search k = some (some vnew) := by
  have hposle : findPos r.keys k ≤ r.keys.length := findPos_le_length _ _
  have hvk : vinsert r.keys (findPos r.keys k) k =
      some (r.keys.take (findPos r.keys k) ++ k :: r.keys.drop (findPos r.keys k)) :=
    vinsert_eq_some.mpr ⟨hposle, rfl⟩
  have hvv : vinsert r.values (findPos r.keys k) vnew =
      some (r.values.take (findPos r.keys k) ++
        vnew :: r.values.drop (findPos r.keys k)) :=
    vinsert_eq_some.mpr ⟨by omega, rfl⟩
  have hINF := INFleafEq hleaf hvk hvv
  have htklen : (r.keys.take (findPos r.keys k)).length = findPos r.keys k := by
    simp [List.length_take]
    omega
  have htvlen : (r.values.take (findPos r.keys k)).length = findPos r.keys k := by
    simp [List.length_take]
    omega
  have hpos : findPos (r.keys.take (findPos r.keys k) ++
      k :: r.keys.drop (findPos r.keys k)) k = findPos r.keys k := by
    rw [findPos_append_self findPos_take, htklen]
  refine ⟨⟨some (BTreeNode.mk
      (r.keys.take (findPos r.keys k) ++ k :: r.keys.drop (findPos r.keys k))
      (r.values.take (findPos r.keys k) ++ vnew :: r.values.drop (findPos r.keys k))
      r.children r.isLeaf r.minDegree), m.min_degree⟩, ?_, ?_⟩
  · rw [BTreeMap.insert]
    simp only [hroot, Option.getD_some]
    rw [if_neg (by omega)]
    simp only [bind, hINF, Option.some_bind, Option.pure_def]
  · show search_in_node (BTreeNode.mk
        (r.keys.take (findPos r.keys k) ++ k :: r.keys.drop (findPos r.keys k))
        (r.values.take (findPos r.keys k) ++ vnew :: r.values.drop (findPos r.keys k))
        r.children r.isLeaf r.minDegree) k = some (some vnew)
    rw [search_in_node.eq_def]
    simp only [keys_mk, values_mk, children_mk, isLeaf_mk]
    rw [hpos]
    rw [if_pos (get?_append_self' htklen)]
    rw [get?_append_self' htvlen]

/-- C2 amended, witnessed at a concrete non-full leaf root holding key 10. -/
theorem C2_amended_witness :
    ∃ m', (⟨some (BTreeNode.mk [10] [7] [] true 2), 2⟩ : BTreeMap Int Nat).insert 10 99 =
        some m' ∧ m'.search 10 = some (some 99) :=
  @C2_amended Int Nat _ ⟨some (BTreeNode.mk [10] [7] [] true 2), 2⟩
    (BTreeNode.mk [10] [7] [] true 2) rfl rfl rfl (by decide) 10 7
    (by simp [inorder, glue]) 99

/-- C3 counterexample: inserting the same key twice leaves a node whose
keys are NOT strictly increasing: after `insert(1, 0)` and `insert(1, 1)`
on `new 2` the root leaf holds keys `[1, 1]`. -/
theorem C3_counterexample :
    insertList (BTreeMap.new 2 : BTreeMap Int Nat) [(1, 0), (1, 1)] =
      some ⟨some (BTreeNode.mk [1, 1] [1, 0] [] true 2), 2⟩ ∧
    ¬ List.Pairwise (· < ·) ([1, 1] : List Int) :=
  ⟨insertListNF_sound 9 _ _ _ rfl, by decide⟩

/-- C3 amended: for insertion sequences with pairwise distinct keys, every
reachable node of the resulting tree has strictly increasing keys. -/
theorem C3_amended [LinearOrder K] {t : Nat} (h2 : 2 ≤ t) (ps : List (K × V))
    (hdist : List.Pairwise (· ≠ ·) (ps.map Prod.fst)) :
    ∃ m', insertList (BTreeMap.new t) ps = some m' ∧
      ∀ r, m'.root = some r → AllNodes (fun x => List.Pairwise (· < ·) x.keys) r := by
  obtain ⟨m', hm', hmo', -⟩ := insertList_MapOrd h2 ps (BTreeMap.new t)
    MapOrd_new hdist (by intro p hp; simp [contents, BTreeMap.new])
  refine ⟨m', hm', ?_⟩
  intro r hr
  obtain ⟨ro', mdx⟩ := m'
  obtain rfl : ro' = some r := by simpa using hr
  obtain ⟨-, hro'⟩ := hmo'
  obtain ⟨hWF, -⟩ := hro'
  exact WF_AllNodes_sorted r true none none hWF

/-- C3 amended, witnessed on a concrete distinct-key run. -/
theorem C3_amended_witness :
    ∃ m', insertList (BTreeMap.new 2 : BTreeMap Int Nat) [(1, 10), (2, 20)] = some m' ∧
      ∀ r, m'.root = some r → AllNodes (fun x => List.Pairwise (· < ·) x.keys) r :=
  C3_amended (by omega) [(1, 10), (2, 20)] (by decide)

/-- C4: `split_child(index)` on a child holding exactly `2t - 1` keys (and
values, with `2t` children when internal) of a non-full parent: the child
keeps its first `t - 1` keys and values (and first `t` children when
internal), the new sibling receives the last `t - 1` keys and values (the
last `t` children when internal) and the child's leaf flag, and the median
pair (index `t - 1`) is promoted into the parent at `index`, shifting later
entries right, with the sibling entering the parent's child list at
`index + 1`. -/
theorem C4_split_child_correct {t : Nat} {n child : BTreeNode K V} {i : Nat}
    (h1 : 1 ≤ t) (ht : n.minDegree = t)
    (hnotfull : n.keys.length < 2 * t - 1)
    (hvlen : n.values.length = n.keys.length)
    (hc : n.children.get? i = some child)
    (hkfull : child.keys.length = 2 * t - 1)
    (hvfull : child.values.length = 2 * t - 1)
    (hcclen : child.isLeaf = false → child.children.length = 2 * t)
    (hik : i ≤ n.keys.length) :
    ∃ medk medv cc nc,
      child.keys.get? (t - 1) = some medk ∧
      child.values.get? (t - 1) = some medv ∧
      splitChildren child t = some (cc, nc) ∧
      (child.isLeaf = true → cc = child.children ∧ nc = []) ∧
      (child.isLeaf = false →
        cc = child.children.take t ∧ nc = child.children.drop t) ∧
      n.split_child i = some (BTreeNode.mk
        (n.keys.take i ++ medk :: n.keys.drop i)
        (n.values.take i ++ medv :: n.values.drop i)
        (n.children.take i ++
          BTreeNode.mk (child.keys.take (t - 1)) (child.values.take (t - 1))
            cc child.isLeaf child.minDegree ::
          BTreeNode.mk (child.keys.drop t) (child.values.drop t)
            nc child.isLeaf t ::
          n.children.drop (i + 1))
        n.isLeaf n.minDegree) := by
  obtain ⟨cc, nc, hscc, hflagT, hflagF⟩ :
      ∃ cc nc, splitChildren child t = some (cc, nc) ∧
        (child.isLeaf = true → cc = child.children ∧ nc = []) ∧
        (child.isLeaf = false →
          cc = child.children.take t ∧ nc = child.children.drop t) := by
    cases hclf : child.isLeaf
    · refine ⟨_, _, splitChildren_internal hclf (by rw [hcclen hclf]; omega), ?_, ?_⟩
      · intro h0
        cases h0
      · exact fun _ => ⟨rfl, rfl⟩
    · refine ⟨_, _, splitChildren_leaf hclf, fun _ => ⟨rfl, rfl⟩, ?_⟩
      intro h0
      cases h0
  obtain ⟨medk, medv, hmedk, hmedv, hsplit⟩ :=
    split_child_spec ht h1 hc (by omega) (by omega) hscc hik (by omega)
  exact ⟨medk, medv, cc, nc, hmedk, hmedv, hscc, hflagT, hflagF, hsplit⟩

/-- C4 witness: splitting the full leaf child `[1, 2, 3]` of the parent
`[100]` at index 0 with `t = 2`. -/
theorem C4_split_child_correct_witness :
    ∃ medk medv cc nc,
      (BTreeNode.mk [1, 2, 3] [4, 5, 6] [] true 2 : BTreeNode Int Nat).keys.get? (2 - 1) =
        some medk ∧
      (BTreeNode.mk [1, 2, 3] [4, 5, 6] [] true 2 : BTreeNode Int Nat).values.get? (2 - 1) =
        some medv ∧
      splitChildren (BTreeNode.mk [1, 2, 3] [4, 5, 6] [] true 2 : BTreeNode Int Nat) 2 =
        some (cc, nc) ∧
      ((BTreeNode.mk [1, 2, 3] [4, 5, 6] [] true 2 : BTreeNode Int Nat).isLeaf = true →
        cc = (BTreeNode.mk [1, 2, 3] [4, 5, 6] [] true 2 : BTreeNode Int Nat).children ∧
        nc = []) ∧
      ((BTreeNode.mk [1, 2, 3] [4, 5, 6] [] true 2 : BTreeNode Int Nat).isLeaf = false →
        cc = (BTreeNode.mk [1, 2, 3] [4, 5, 6] [] true 2 : BTreeNode Int Nat).children.take 2 ∧
        nc = (BTreeNode.mk [1, 2, 3] [4, 5, 6] [] true 2 : BTreeNode Int Nat).children.drop 2) ∧
      (BTreeNode.mk [100] [0]
          [BTreeNode.mk [1, 2, 3] [4, 5, 6] [] true 2,
           BTreeNode.mk [200] [9] [] true 2] false 2 : BTreeNode Int Nat).split_child 0 =
        some (BTreeNode.mk
          ((BTreeNode.mk [100] [0]
            [BTreeNode.mk [1, 2, 3] [4, 5, 6] [] true 2,
             BTreeNode.mk [200] [9] [] true 2] false 2 : BTreeNode Int Nat).keys.take 0 ++
            medk :: (BTreeNode.mk [100] [0]
            [BTreeNode.mk [1, 2, 3] [4, 5, 6] [] true 2,
             BTreeNode.mk [200] [9] [] true 2] false 2 : BTreeNode Int Nat).keys.drop 0)
          ((BTreeNode.mk [100] [0]
            [BTreeNode.mk [1, 2, 3] [4, 5, 6] [] true 2,
             BTreeNode.mk [200] [9] [] true 2] false 2 : BTreeNode Int Nat).values.take 0 ++
            medv :: (BTreeNode.mk [100] [0]
            [BTreeNode.mk [1, 2, 3] [4, 5, 6] [] true 2,
             BTreeNode.mk [200] [9] [] true 2] false 2 : BTreeNode Int Nat).values.drop 0)
          ((BTreeNode.mk [100] [0]
            [BTreeNode.mk [1, 2, 3] [4, 5, 6] [] true 2,
             BTreeNode.mk [200] [9] [] true 2] false 2 : BTreeNode Int Nat).children.take 0 ++
            BTreeNode.mk ((BTreeNode.mk [1, 2, 3] [4, 5, 6] [] true 2 :
                BTreeNode Int Nat).keys.take (2 - 1))
              ((BTreeNode.mk [1, 2, 3] [4, 5, 6] [] true 2 :
                BTreeNode Int Nat).values.take (2 - 1))
              cc
              (BTreeNode.mk [1, 2, 3] [4, 5, 6] [] true 2 : BTreeNode Int Nat).isLeaf
              (BTreeNode.mk [1, 2, 3] [4, 5, 6] [] true 2 : BTreeNode Int Nat).minDegree ::
            BTreeNode.mk ((BTreeNode.mk [1, 2, 3] [4, 5, 6] [] true 2 :
                BTreeNode Int Nat).keys.drop 2)
              ((BTreeNode.mk [1, 2, 3] [4, 5, 6] [] true 2 :
                BTreeNode Int Nat).values.drop 2)
              nc
              (BTreeNode.mk [1, 2, 3] [4, 5, 6] [] true 2 : BTreeNode Int Nat).isLeaf 2 ::
            (BTreeNode.mk [100] [0]
              [BTreeNode.mk [1, 2, 3] [4, 5, 6] [] true 2,
               BTreeNode.mk [200] [9] [] true 2] false 2 : BTreeNode Int Nat).children.drop (0 + 1))
          (BTreeNode.mk [100] [0]
            [BTreeNode.mk [1, 2, 3] [4, 5, 6] [] true 2,
             BTreeNode.mk [200] [9] [] true 2] false 2 : BTreeNode Int Nat).isLeaf
          (BTreeNode.mk [100] [0]
            [BTreeNode.mk [1, 2, 3] [4, 5, 6] [] true 2,
             BTreeNode.mk [200] [9] [] true 2] false 2 : BTreeNode Int Nat).minDegree) :=
  C4_split_child_correct (by omega) rfl (by decide) rfl rfl rfl rfl
    (by intro h0; cases h0) (by decide)

end Claims

section ClaimsB

variable {K V : Type}

/-- C5: after every insertion sequence on `new t` (t ≥ 2) all leaves sit at
one uniform depth; and across a single insert the depth grows exactly when
the root was full (the root-growth step) — from a present root of depth `d`
to `d + 1` if that root was full and to `d` otherwise, and from an absent
root to depth 1. -/
theorem C5_uniform_depth [LinearOrder K] {t : Nat} (h2 : 2 ≤ t) :
    (∀ ps : List (K × V), ∃ m', insertList (BTreeMap.new t) ps = some m' ∧
      ∀ r, m'.root = some r → ∃ d, UD d r) ∧
    (∀ (m : BTreeMap K V) (k : K) (v : V), MapInv t m →
      ∃ m', m.insert k v = some m' ∧
        (∀ r r' d, m.root = some r → m'.root = some r' → UD d r →
          UD (if r.keys.length = 2 * t - 1 then d + 1 else d) r') ∧
        (m.root = none → ∀ r', m'.root = some r' → UD 1 r')) := by
  constructor
  · intro ps
    obtain ⟨m', hm', -, hud, -⟩ := insertList_SWF h2 ps (BTreeMap.new t)
      MapInv_new (by intro r hr; simp [BTreeMap.new] at hr)
    exact ⟨m', hm', hud⟩
  · intro m k v hm
    obtain ⟨m', hm', -, -, hstep, hnone⟩ := insert_SWF h2 hm k v
    exact ⟨m', hm', hstep, hnone⟩

/-- C5 witness at `t = 2`, `K = Int`, `V = Nat`. -/
theorem C5_uniform_depth_witness :
    (∀ ps : List (Int × Nat), ∃ m', insertList (BTreeMap.new 2) ps = some m' ∧
      ∀ r, m'.root = some r → ∃ d, UD d r) ∧
    (∀ (m : BTreeMap Int Nat) (k : Int) (v : Nat), MapInv 2 m →
      ∃ m', m.insert k v = some m' ∧
        (∀ r r' d, m.root = some r → m'.root = some r' → UD d r →
          UD (if r.keys.length = 2 * 2 - 1 then d + 1 else d) r') ∧
        (m.root = none → ∀ r', m'.root = some r' → UD 1 r')) :=
  C5_uniform_depth (by omega)

/-- C6: after every insertion sequence on `new t` (t ≥ 2), every reachable
node has parallel key/value vectors, internal nodes have one more child
than keys and leaves none, every node holds at most `2t - 1` keys, every
non-root node (every node below a root child, children of the root
included) holds at least `t - 1` keys, and the present root holds at least
one key. -/
theorem C6_node_bookkeeping [LinearOrder K] {t : Nat} (h2 : 2 ≤ t)
    (ps : List (K × V)) :
    ∃ m', insertList (BTreeMap.new t) ps = some m' ∧
      ∀ r, m'.root = some r →
        1 ≤ r.keys.length ∧
        AllNodes (fun x => x.values.length = x.keys.length ∧
          (x.isLeaf = false → x.children.length = x.keys.length + 1) ∧
          (x.isLeaf = true → x.children = []) ∧
          x.keys.length ≤ 2 * t - 1) r ∧
        (∀ c ∈ r.children, AllNodes (fun x => t - 1 ≤ x.keys.length) c) := by
  obtain ⟨m', hm', hminv, -, -⟩ := insertList_SWF h2 ps (BTreeMap.new t)
    MapInv_new (by intro r hr; simp [BTreeMap.new] at hr)
  refine ⟨m', hm', ?_⟩
  intro r hr
  obtain ⟨ro', mdx⟩ := m'
  obtain rfl : ro' = some r := by simpa using hr
  obtain ⟨-, hro⟩ := hminv
  obtain ⟨hswf, hpos⟩ := hro
  refine ⟨hpos, SWF_AllNodes r true hswf, ?_⟩
  intro c hc
  exact SWF_AllNodes_min c (SWFlist_mem (SWF_children_list hswf) hc)

/-- C6 witness on a concrete run at `t = 2`. -/
theorem C6_node_bookkeeping_witness :
    ∃ m', insertList (BTreeMap.new 2 : BTreeMap Int Nat) [(1, 10), (2, 20)] = some m' ∧
      ∀ r, m'.root = some r →
        1 ≤ r.keys.length ∧
        AllNodes (fun x => x.values.length = x.keys.length ∧
          (x.isLeaf = false → x.children.length = x.keys.length + 1) ∧
          (x.isLeaf = true → x.children = []) ∧
          x.keys.length ≤ 2 * 2 - 1) r ∧
        (∀ c ∈ r.children, AllNodes (fun x => 2 - 1 ≤ x.keys.length) c) :=
  C6_node_bookkeeping (by omega) [(1, 10), (2, 20)]

/-- C7 counterexample: construction never rejects a degree below 2 —
`new 1` and `new 0` both succeed, returning an empty map that stores the
given degree unchecked; no InvalidDegree (or any other) failure path
exists in `new`. -/
theorem C7_counterexample :
    (BTreeMap.new 1 : BTreeMap Int Nat) = ⟨none, 1⟩ ∧
    (BTreeMap.new 0 : BTreeMap Int Nat) = ⟨none, 0⟩ :=
  ⟨rfl, rfl⟩

/-- C7 amended: for EVERY degree `t` — including `t < 2` — `new t` succeeds
and returns the empty map with the degree stored as given; the code has no
rejection or error path. -/
theorem C7_amended (t : Nat) :
    (BTreeMap.new t : BTreeMap K V).root = none ∧
    (BTreeMap.new t : BTreeMap K V).min_degree = t :=
  ⟨rfl, rfl⟩

/-- C8: the spec's concrete `t = 2` trace. After inserting
(10,"Ten"), (20,"Twenty"), (5,"Five"), (6,"Six") the tree is an internal
root holding `[10]` over the leaves `[5, 6]` and `[20]`; the further
`insert(12, "Twelve")` yields root `[10]` over leaves `[5, 6]` and
`[12, 20]`; and `search(&10)` on the result returns `"Ten"`. -/
theorem C8_concrete_trace :
    insertList (BTreeMap.new 2 : BTreeMap Int String)
        [(10, "Ten"), (20, "Twenty"), (5, "Five"), (6, "Six")] =
      some ⟨some (BTreeNode.mk [10] ["Ten"]
        [BTreeNode.mk [5, 6] ["Five", "Six"] [] true 2,
         BTreeNode.mk [20] ["Twenty"] [] true 2] false 2), 2⟩ ∧
    insertList (BTreeMap.new 2 : BTreeMap Int String)
        [(10, "Ten"), (20, "Twenty"), (5, "Five"), (6, "Six"), (12, "Twelve")] =
      some ⟨some (BTreeNode.mk [10] ["Ten"]
        [BTreeNode.mk [5, 6] ["Five", "Six"] [] true 2,
         BTreeNode.mk [12, 20] ["Twelve", "Twenty"] [] true 2] false 2), 2⟩ ∧
    (⟨some (BTreeNode.mk [10] ["Ten"]
        [BTreeNode.mk [5, 6] ["Five", "Six"] [] true 2,
         BTreeNode.mk [12, 20] ["Twelve", "Twenty"] [] true 2] false 2), 2⟩ :
      BTreeMap Int String).search 10 = some (some "Ten") :=
  ⟨insertListNF_sound 9 _ _ _ rfl, insertListNF_sound 9 _ _ _ rfl,
   searchMapNF_sound 9 rfl⟩

/-- C9: on a structurally well-formed map, `insert k v` changes the stored
multiset of pairs by exactly adding `(k, v)`: the new contents are a
permutation of `(k, v)` consed onto the old contents, so every old binding
survives with its multiplicity and nothing else is added. -/
theorem C9_insert_multiset [LinearOrder K] {t : Nat} (h2 : 2 ≤ t)
    {m : BTreeMap K V} (hm : MapInv t m) (k : K) (v : V) :
    ∃ m', m.insert k v = some m' ∧
      (contents m').Perm ((k, v) :: contents m) := by
  obtain ⟨m', hm', -, hperm, -, -⟩ := insert_SWF h2 hm k v
  exact ⟨m', hm', hperm⟩

/-- C9 witness: one concrete insert on the empty map at `t = 2`. -/
theorem C9_insert_multiset_witness :
    ∃ m', (BTreeMap.new 2 : BTreeMap Int Nat).insert 5 7 = some m' ∧
      (contents m').Perm ((5, 7) :: contents (BTreeMap.new 2 : BTreeMap Int Nat)) :=
  C9_insert_multiset (by omega) MapInv_new 5 7

/-- C10: under the structural invariants neither insert nor search can hit
a panic: both always return through the `some` (non-panic) layer. -/
theorem C10_no_panic [LinearOrder K] {t : Nat} (h2 : 2 ≤ t)
    {m : BTreeMap K V} (hm : MapInv t m) (k q : K) (v : V) :
    (∃ m', m.insert k v = some m') ∧ (∃ res, m.search q = some res) := by
  obtain ⟨m', hm', -, -, -, -⟩ := insert_SWF h2 hm k v
  refine ⟨⟨m', hm'⟩, ?_⟩
  obtain ⟨ro, md⟩ := m
  obtain ⟨-, hro⟩ := hm
  cases ro with
  | none => exact ⟨none, rfl⟩
  | some r =>
    obtain ⟨hswf, -⟩ := hro
    obtain ⟨res, hres⟩ := search_in_node_SWF q r true hswf
    exact ⟨res, hres⟩

/-- C10 witness at the empty `t = 2` map. -/
theorem C10_no_panic_witness :
    (∃ m', (BTreeMap.new 2 : BTreeMap Int Nat).insert 1 2 = some m') ∧
    (∃ res, (BTreeMap.new 2 : BTreeMap Int Nat).search 3 = some res) :=
  C10_no_panic (by omega) MapInv_new 1 3 2

end ClaimsB
